import Mathlib

/-!
# Verification of the Git Activity Analytics Engine

A shallow embedding, in Lean 4, of the core data transformations of the
`tools` repository (report engine): commit filtering, diff-based statistics
aggregation, keyword categorization, ticket extraction/grouping,
multi-repository aggregation, date-window construction, and export rendering.

Each definition is translated directly from the corresponding Python source
file (noted in its doc comment).  Side effects (the system clock, the working
tree, the VCS log) are made explicit parameters; Python `set` becomes
`Finset String`; Python insertion-ordered `dict` becomes an association list;
Python exceptions become `Except`/`Option` results.
-/

namespace Tools

/-! ## String utilities

`strContains s pat` models the Python substring test `pat in s`
(true when `pat` occurs contiguously anywhere in `s`; an empty `pat`
is contained in every string). -/

/-- Python `str.lower()` (ASCII case mapping, applied characterwise).
Defined over the character list so that it evaluates by kernel reduction. -/
def pyToLower (s : String) : String :=
  String.mk (s.toList.map Char.toLower)

/-- Python `str.upper()` (ASCII case mapping, applied characterwise). -/
def pyToUpper (s : String) : String :=
  String.mk (s.toList.map Char.toUpper)

/-- Auxiliary scanner: does `sub` occur (contiguously) in the char list? -/
def strContainsAux (sub : List Char) : List Char → Bool
  | [] => sub.isEmpty
  | c :: t => sub.isPrefixOf (c :: t) || strContainsAux sub t

/-- Python `pat in s` (contiguous substring containment). -/
def strContains (s pat : String) : Bool :=
  strContainsAux pat.toList s.toList

theorem isPrefixOf_iff_exists {l₁ l₂ : List Char} :
    l₁.isPrefixOf l₂ = true ↔ ∃ t, l₂ = l₁ ++ t := by
  rw [List.isPrefixOf_iff_prefix]
  exact ⟨fun ⟨t, h⟩ => ⟨t, h.symm⟩, fun ⟨t, h⟩ => ⟨t, h.symm⟩⟩

theorem strContainsAux_iff (sub : List Char) (s : List Char) :
    strContainsAux sub s = true ↔ ∃ p q, s = p ++ sub ++ q := by
  induction s with
  | nil =>
    simp only [strContainsAux, List.isEmpty_iff]
    constructor
    · rintro rfl; exact ⟨[], [], rfl⟩
    · rintro ⟨p, q, h⟩
      rcases List.append_eq_nil.mp (List.append_eq_nil.mp h.symm).1 with ⟨-, h2⟩
      exact h2
  | cons c t ih =>
    simp only [strContainsAux, Bool.or_eq_true, ih, isPrefixOf_iff_exists]
    constructor
    · rintro (⟨q, h⟩ | ⟨p, q, h⟩)
      · exact ⟨[], q, by simpa using h⟩
      · exact ⟨c :: p, q, by simp [h]⟩
    · rintro ⟨p, q, h⟩
      cases p with
      | nil => exact Or.inl ⟨q, by simpa using h⟩
      | cons x p =>
        right
        simp only [List.cons_append, List.cons.injEq] at h
        exact ⟨p, q, h.2⟩

/-- Substring containment, stated structurally: `pat` occurs in `s` iff the
character list of `s` decomposes around that of `pat`. -/
theorem strContains_iff (s pat : String) :
    strContains s pat = true ↔ ∃ p q, s.toList = p ++ pat.toList ++ q :=
  strContainsAux_iff _ _

/-! ## Stable sorting

Python `sorted(..., key=k, reverse=True)` and `list.sort(key=k, reverse=True)`
are stable sorts: the output is in descending `k`-order, and elements with
equal keys keep their relative input order.  `sortDescBy` below is a stable
insertion sort realising exactly that specification (and `sortAscBy` the
ascending variant used for `sorted(dict.items())`).  The lemmas
`sortDescBy_pairwise` / `sortDescBy_filter` (and the ascending twins) prove
the two properties that uniquely characterise the stable sort. -/

section StableSort

variable {α : Type} {K : Type} [LinearOrder K]

/-- Insert `x` into a descending-sorted list, before the first element whose
key is `≤ key x` (so that ties keep the earlier element first). -/
def insertDescBy (key : α → K) (x : α) : List α → List α
  | [] => [x]
  | y :: ys => if key y ≤ key x then x :: y :: ys else y :: insertDescBy key x ys

/-- Stable sort, descending by `key` (Python `sorted(..., key, reverse=True)`). -/
def sortDescBy (key : α → K) : List α → List α
  | [] => []
  | x :: xs => insertDescBy key x (sortDescBy key xs)

theorem mem_insertDescBy (key : α → K) (x : α) (l : List α) (z : α) :
    z ∈ insertDescBy key x l ↔ z = x ∨ z ∈ l := by
  induction l with
  | nil => simp [insertDescBy]
  | cons y ys ih =>
    by_cases h : key y ≤ key x
    · simp [insertDescBy, h]
    · simp only [insertDescBy, if_neg h, List.mem_cons, ih]
      tauto

theorem insertDescBy_perm (key : α → K) (x : α) (l : List α) :
    List.Perm (insertDescBy key x l) (x :: l) := by
  induction l with
  | nil => simp [insertDescBy]
  | cons y ys ih =>
    by_cases h : key y ≤ key x
    · simp [insertDescBy, h]
    · simp only [insertDescBy, if_neg h]
      exact (ih.cons y).trans (List.Perm.swap x y ys)

theorem sortDescBy_perm (key : α → K) (l : List α) :
    List.Perm (sortDescBy key l) l := by
  induction l with
  | nil => exact List.Perm.refl _
  | cons x xs ih =>
    exact (insertDescBy_perm key x _).trans (ih.cons x)

theorem insertDescBy_pairwise (key : α → K) (x : α) (l : List α)
    (h : l.Pairwise (fun a b => key b ≤ key a)) :
    (insertDescBy key x l).Pairwise (fun a b => key b ≤ key a) := by
  induction l with
  | nil => simp [insertDescBy]
  | cons y ys ih =>
    rcases List.pairwise_cons.mp h with ⟨hy, hys⟩
    by_cases hxy : key y ≤ key x
    · rw [insertDescBy, if_pos hxy]
      refine List.pairwise_cons.mpr ⟨?_, h⟩
      intro z hz
      rcases List.mem_cons.mp hz with rfl | hz
      · exact hxy
      · exact le_trans (hy z hz) hxy
    · rw [insertDescBy, if_neg hxy]
      refine List.pairwise_cons.mpr ⟨?_, ih hys⟩
      intro z hz
      rcases (mem_insertDescBy key x ys z).mp hz with rfl | hz
      · exact le_of_lt (lt_of_not_le hxy)
      · exact hy z hz

/-- The stable descending sort is sorted: keys are pairwise `≥` left-to-right. -/
theorem sortDescBy_pairwise (key : α → K) (l : List α) :
    (sortDescBy key l).Pairwise (fun a b => key b ≤ key a) := by
  induction l with
  | nil => exact List.Pairwise.nil
  | cons x xs ih => exact insertDescBy_pairwise key x _ ih

theorem filter_insertDescBy [DecidableEq K] (key : α → K) (x : α) (l : List α) (k : K) :
    (insertDescBy key x l).filter (fun a => key a = k)
      = if key x = k then x :: l.filter (fun a => key a = k)
        else l.filter (fun a => key a = k) := by
  induction l with
  | nil => by_cases h : key x = k <;> simp [insertDescBy, h]
  | cons y ys ih =>
    by_cases hxy : key y ≤ key x
    · rw [insertDescBy, if_pos hxy]
      by_cases h : key x = k <;> simp [List.filter_cons, h]
    · rw [insertDescBy, if_neg hxy]
      have hylt : key x < key y := lt_of_not_le hxy
      by_cases h : key x = k
      · have hyk : ¬ key y = k := by
          intro hk; exact absurd (hk ▸ h ▸ hylt) (lt_irrefl _)
        simp [List.filter_cons, hyk, ih, h]
      · by_cases hyk : key y = k <;>
          simp [List.filter_cons, hyk, ih, h]

/-- Stability of the descending sort: for each key value `k`, the elements
with key `k` appear in the output exactly as they appear in the input. -/
theorem sortDescBy_filter [DecidableEq K] (key : α → K) (l : List α) (k : K) :
    (sortDescBy key l).filter (fun a => key a = k)
      = l.filter (fun a => key a = k) := by
  induction l with
  | nil => rfl
  | cons x xs ih =>
    by_cases h : key x = k <;>
      simp [sortDescBy, filter_insertDescBy, h, ih, List.filter_cons]

/-- Insert `x` into an ascending-sorted list, before the first element whose
key is `≥ key x` (ties keep the earlier element first). -/
def insertAscBy (key : α → K) (x : α) : List α → List α
  | [] => [x]
  | y :: ys => if key x ≤ key y then x :: y :: ys else y :: insertAscBy key x ys

/-- Stable sort, ascending by `key` (Python `sorted(..., key)`). -/
def sortAscBy (key : α → K) : List α → List α
  | [] => []
  | x :: xs => insertAscBy key x (sortAscBy key xs)

theorem mem_insertAscBy (key : α → K) (x : α) (l : List α) (z : α) :
    z ∈ insertAscBy key x l ↔ z = x ∨ z ∈ l := by
  induction l with
  | nil => simp [insertAscBy]
  | cons y ys ih =>
    by_cases h : key x ≤ key y
    · simp [insertAscBy, h]
    · simp only [insertAscBy, if_neg h, List.mem_cons, ih]
      tauto

theorem insertAscBy_perm (key : α → K) (x : α) (l : List α) :
    List.Perm (insertAscBy key x l) (x :: l) := by
  induction l with
  | nil => simp [insertAscBy]
  | cons y ys ih =>
    by_cases h : key x ≤ key y
    · simp [insertAscBy, h]
    · simp only [insertAscBy, if_neg h]
      exact (ih.cons y).trans (List.Perm.swap x y ys)

theorem sortAscBy_perm (key : α → K) (l : List α) :
    List.Perm (sortAscBy key l) l := by
  induction l with
  | nil => exact List.Perm.refl _
  | cons x xs ih =>
    exact (insertAscBy_perm key x _).trans (ih.cons x)

theorem insertAscBy_pairwise (key : α → K) (x : α) (l : List α)
    (h : l.Pairwise (fun a b => key a ≤ key b)) :
    (insertAscBy key x l).Pairwise (fun a b => key a ≤ key b) := by
  induction l with
  | nil => simp [insertAscBy]
  | cons y ys ih =>
    rcases List.pairwise_cons.mp h with ⟨hy, hys⟩
    by_cases hxy : key x ≤ key y
    · rw [insertAscBy, if_pos hxy]
      refine List.pairwise_cons.mpr ⟨?_, h⟩
      intro z hz
      rcases List.mem_cons.mp hz with rfl | hz
      · exact hxy
      · exact le_trans hxy (hy z hz)
    · rw [insertAscBy, if_neg hxy]
      refine List.pairwise_cons.mpr ⟨?_, ih hys⟩
      intro z hz
      rcases (mem_insertAscBy key x ys z).mp hz with rfl | hz
      · exact le_of_lt (lt_of_not_le hxy)
      · exact hy z hz

/-- The stable ascending sort is sorted: keys are pairwise `≤` left-to-right. -/
theorem sortAscBy_pairwise (key : α → K) (l : List α) :
    (sortAscBy key l).Pairwise (fun a b => key a ≤ key b) := by
  induction l with
  | nil => exact List.Pairwise.nil
  | cons x xs ih => exact insertAscBy_pairwise key x _ ih

end StableSort

/-! ## Categorizer (`src/report/utils/categorizer.py`)

`categorize_commit` lower-cases the message and tests substring membership
against two fixed keyword lists in priority order (Console first, then
Server); `group_commits_by_component` buckets messages under the three
component labels, the dict being initialised with all three keys. -/

/-- The closed enumeration of component labels
(`ComponentType = Literal["Console", "Server", "Others"]`). -/
inductive Component
  | Console
  | Server
  | Others
deriving DecidableEq, Repr

/-- Console (UI/frontend) keywords, verbatim from the source. -/
def console_keywords : List String :=
  ["console", "ui-block", "ui block", "frontend", "react", "detail", "icon",
   "style", "css", "component", "button", "modal", "dialog", "form", "layout",
   "page", "view", "screen", "ui", "ux"]

/-- Server (backend/API) keywords, verbatim from the source. -/
def server_keywords : List String :=
  ["server", "nest-core", "nestcore", "backend", "api", "endpoint",
   "controller", "service", "repository", "database", "db", "query",
   "migration"]

/-- `categorize_commit` from `src/report/utils/categorizer.py`. -/
def categorize_commit (message : String) : Component :=
  let message_lower := pyToLower message
  if console_keywords.any (fun k => strContains message_lower k) then .Console
  else if server_keywords.any (fun k => strContains message_lower k) then .Server
  else .Others

/-- One step of the grouping loop: `grouped[category].append(commit)` on the
insertion-ordered dict, modelled as an association list. -/
def appendToComponent (g : List (Component × List String)) (cat : Component)
    (m : String) : List (Component × List String) :=
  g.map (fun p => if p.1 = cat then (p.1, p.2 ++ [m]) else p)

/-- `group_commits_by_component` from `src/report/utils/categorizer.py`:
the dict starts with the three keys `Console`, `Server`, `Others` (in that
order) mapped to empty lists, and each commit message is appended to its
category's bucket. -/
def group_commits_by_component (commits : List String) :
    List (Component × List String) :=
  commits.foldl (fun g m => appendToComponent g (categorize_commit m) m)
    [(.Console, []), (.Server, []), (.Others, [])]

theorem appendToComponent_step (a b c : List String) (cat : Component) (m : String) :
    appendToComponent [(.Console, a), (.Server, b), (.Others, c)] cat m
    = [(.Console, if cat = .Console then a ++ [m] else a),
       (.Server, if cat = .Server then b ++ [m] else b),
       (.Others, if cat = .Others then c ++ [m] else c)] := by
  cases cat <;> simp [appendToComponent]

theorem groupByComponent_fold (msgs : List String)
    (a b c : List String) :
    msgs.foldl (fun g m => appendToComponent g (categorize_commit m) m)
      [(.Console, a), (.Server, b), (.Others, c)]
    = [(.Console, a ++ msgs.filter (fun m => categorize_commit m = .Console)),
       (.Server, b ++ msgs.filter (fun m => categorize_commit m = .Server)),
       (.Others, c ++ msgs.filter (fun m => categorize_commit m = .Others))] := by
  induction msgs generalizing a b c with
  | nil => simp
  | cons m ms ih =>
    rcases h : categorize_commit m with _ | _ | _ <;>
      simp [List.foldl_cons, appendToComponent_step, h, ih, List.filter_cons]

/-- The grouping map always has exactly the three keys, in declaration order,
and each bucket is the input-order-preserving filter of its category. -/
theorem group_commits_by_component_eq (msgs : List String) :
    group_commits_by_component msgs
    = [(.Console, msgs.filter (fun m => categorize_commit m = .Console)),
       (.Server, msgs.filter (fun m => categorize_commit m = .Server)),
       (.Others, msgs.filter (fun m => categorize_commit m = .Others))] := by
  have h := groupByComponent_fold msgs [] [] []
  simpa [group_commits_by_component] using h

/-- `some keyword of ks occurs as a contiguous substring of ml`, stated
structurally (no reference to the scanner). -/
def hitsKeyword (ml : String) (ks : List String) : Prop :=
  ∃ k ∈ ks, ∃ p q, ml.toList = p ++ k.toList ++ q

theorem any_strContains_iff (ml : String) (ks : List String) :
    (ks.any (fun k => strContains ml k) = true) ↔ hitsKeyword ml ks := by
  rw [List.any_eq_true]
  unfold hitsKeyword
  constructor
  · rintro ⟨k, hk, hc⟩
    exact ⟨k, hk, (strContains_iff ml k).mp hc⟩
  · rintro ⟨k, hk, hd⟩
    exact ⟨k, hk, (strContains_iff ml k).mpr hd⟩

/-- C8: `categorize_commit` lower-cases the message and tests the Console
keyword set before the Server keyword set, returning the first matching label
and `Others` when neither matches (with the three spec examples holding,
case-insensitively); and `group_commits_by_component` always returns exactly
the three keys `Console`, `Server`, `Others` in that order, each bucket
preserving input order (it is the input-order filter of its category). -/
theorem categorizer_grouping_and_examples :
    (∀ msgs : List String,
      group_commits_by_component msgs
      = [(.Console, msgs.filter (fun m => categorize_commit m = .Console)),
         (.Server, msgs.filter (fun m => categorize_commit m = .Server)),
         (.Others, msgs.filter (fun m => categorize_commit m = .Others))])
    ∧ (∀ m : String,
        (hitsKeyword (pyToLower m) console_keywords → categorize_commit m = .Console)
        ∧ (¬ hitsKeyword (pyToLower m) console_keywords →
            hitsKeyword (pyToLower m) server_keywords → categorize_commit m = .Server)
        ∧ (¬ hitsKeyword (pyToLower m) console_keywords →
            ¬ hitsKeyword (pyToLower m) server_keywords → categorize_commit m = .Others))
    ∧ categorize_commit "feat: add console UI component" = .Console
    ∧ categorize_commit "fix: database migration" = .Server
    ∧ categorize_commit "docs: update README" = .Others
    ∧ categorize_commit "FIX: DATABASE MIGRATION" = .Server := by
  refine ⟨group_commits_by_component_eq, fun m => ?_, by decide, by decide,
    by decide, by decide⟩
  have hc := any_strContains_iff (pyToLower m) console_keywords
  have hs := any_strContains_iff (pyToLower m) server_keywords
  unfold categorize_commit
  cases h1 : console_keywords.any (fun k => strContains (pyToLower m) k) with
  | true =>
    have hcv : hitsKeyword (pyToLower m) console_keywords := hc.mp h1
    rw [if_pos h1]
    exact ⟨fun _ => rfl, fun hn => absurd hcv hn, fun hn => absurd hcv hn⟩
  | false =>
    have hn1 : ¬ ((console_keywords.any fun k => strContains (pyToLower m) k) = true) := by
      simp [h1]
    have hnc : ¬ hitsKeyword (pyToLower m) console_keywords := fun h => hn1 (hc.mpr h)
    rw [if_neg hn1]
    cases h2 : server_keywords.any (fun k => strContains (pyToLower m) k) with
    | true =>
      rw [if_pos (rfl : (true = true))]
      exact ⟨fun h => absurd h hnc, fun _ _ => rfl,
        fun _ hn => absurd (hs.mp h2) hn⟩
    | false =>
      have hn2 : ¬ ((server_keywords.any fun k => strContains (pyToLower m) k) = true) := by
        simp [h2]
      have hns : ¬ hitsKeyword (pyToLower m) server_keywords := fun h => hn2 (hs.mpr h)
      rw [if_neg (Bool.false_ne_true)]
      exact ⟨fun h => absurd h hnc, fun _ h => absurd h hns, fun _ _ => rfl⟩

/-- C10: the keyword test is contiguous-substring containment on the
lower-cased message, not whole-word membership: the label is `Console` iff
some Console keyword occurs as a substring anywhere in the lower-cased
message (e.g. the keyword `ui` inside the word `build`), otherwise `Server`
iff some Server keyword occurs as a substring, otherwise `Others`; the
function is total (it always returns one of the three labels). -/
theorem categorize_substring_semantics :
    (∀ m : String,
      (categorize_commit m = .Console ↔ hitsKeyword (pyToLower m) console_keywords)
      ∧ (categorize_commit m = .Server ↔
          ¬ hitsKeyword (pyToLower m) console_keywords
          ∧ hitsKeyword (pyToLower m) server_keywords)
      ∧ (categorize_commit m = .Others ↔
          ¬ hitsKeyword (pyToLower m) console_keywords
          ∧ ¬ hitsKeyword (pyToLower m) server_keywords))
    ∧ categorize_commit "build" = .Console := by
  refine ⟨fun m => ?_, by decide⟩
  have hc := any_strContains_iff (pyToLower m) console_keywords
  have hs := any_strContains_iff (pyToLower m) server_keywords
  unfold categorize_commit
  cases h1 : console_keywords.any (fun k => strContains (pyToLower m) k) with
  | true =>
    have hcv : hitsKeyword (pyToLower m) console_keywords := hc.mp h1
    rw [if_pos h1]
    refine ⟨⟨fun _ => hcv, fun _ => rfl⟩, ?_, ?_⟩
    · exact ⟨fun h => absurd h (by simp), fun ⟨hn, _⟩ => absurd hcv hn⟩
    · exact ⟨fun h => absurd h (by simp), fun ⟨hn, _⟩ => absurd hcv hn⟩
  | false =>
    have hn1 : ¬ ((console_keywords.any fun k => strContains (pyToLower m) k) = true) := by
      simp [h1]
    have hnc : ¬ hitsKeyword (pyToLower m) console_keywords := fun h => hn1 (hc.mpr h)
    rw [if_neg hn1]
    cases h2 : server_keywords.any (fun k => strContains (pyToLower m) k) with
    | true =>
      have hsv : hitsKeyword (pyToLower m) server_keywords := hs.mp h2
      rw [if_pos (rfl : (true = true))]
      refine ⟨?_, ⟨fun _ => ⟨hnc, hsv⟩, fun _ => rfl⟩, ?_⟩
      · exact ⟨fun h => absurd h (by simp), fun hcv => absurd hcv hnc⟩
      · exact ⟨fun h => absurd h (by simp), fun ⟨_, hn⟩ => absurd hsv hn⟩
    | false =>
      have hn2 : ¬ ((server_keywords.any fun k => strContains (pyToLower m) k) = true) := by
        simp [h2]
      have hns : ¬ hitsKeyword (pyToLower m) server_keywords := fun h => hn2 (hs.mpr h)
      rw [if_neg (Bool.false_ne_true)]
      refine ⟨?_, ?_, ⟨fun _ => ⟨hnc, hns⟩, fun _ => rfl⟩⟩
      · exact ⟨fun h => absurd h (by simp), fun hcv => absurd hcv hnc⟩
      · exact ⟨fun h => absurd h (by simp), fun ⟨_, hsv⟩ => absurd hsv hns⟩

/-! ## Date ranges (`src/shared/dates.py`)

Python `date` values are totally ordered chronologically, and the source only
uses them through `date.today()`, `timedelta` day arithmetic, `weekday()`,
comparison, and the `date(y, m, 1)` constructor.  We represent a date by its
proleptic-Gregorian day number (days since 1970-01-01, an `Int`), under which
those operations become integer arithmetic; `dayNumber y m d` converts a
calendar triple to its day number.  A `time` is kept as an explicit
hour/minute/second/microsecond tuple, so `time.min` is 00:00:00.000000 and
`time.max` is 23:59:59.999999 exactly as in Python.  `date.today()` is a side
effect and becomes an explicit `today : Int` parameter. -/

/-- Python `datetime.time`, at field precision. -/
structure PyTime where
  hour : Nat
  minute : Nat
  second : Nat
  microsecond : Nat
deriving DecidableEq, Repr

/-- Python `time.min` = 00:00:00.000000. -/
def timeMin : PyTime := ⟨0, 0, 0, 0⟩

/-- Python `time.max` = 23:59:59.999999. -/
def timeMax : PyTime := ⟨23, 59, 59, 999999⟩

/-- Python `datetime.datetime`: a calendar day (as its day number) plus a
time of day; `datetime.combine(d, t)` is just the pair constructor. -/
structure PyDateTime where
  day : Int
  tod : PyTime
deriving DecidableEq, Repr

/-- 1 when the month is January or February (the year-shift of the civil
calendar formula), else 0. -/
def monthAdj (m : Int) : Int := if m ≤ 2 then 1 else 0

/-- Day number (days since 1970-01-01) of the proleptic-Gregorian date
`(y, m, d)` — the integer-arithmetic form of `date.toordinal`, shifted.
`/` and `%` are floor division/modulus, as in Python. -/
def dayNumber (y m d : Int) : Int :=
  365 * (y - monthAdj m) + (y - monthAdj m) / 4 - (y - monthAdj m) / 100
    + (y - monthAdj m) / 400 + (153 * ((m + 9) % 12) + 2) / 5 + d - 1 - 719468

/-- Python `date.weekday()` (Monday = 0); 1970-01-01 was a Thursday. -/
def pyWeekday (t : Int) : Int := (t + 3) % 7

/-- Python leap-year rule (`calendar.isleap` / `date`'s internal rule). -/
def isLeapYear (y : Int) : Bool :=
  (y % 4 == 0 && y % 100 != 0) || y % 400 == 0

/-- Length of month `m` (1-12) of year `y`; 0 for an out-of-range month. -/
def daysInMonth (y m : Int) : Int :=
  if m = 2 then (if isLeapYear y then 29 else 28)
  else if m = 4 ∨ m = 6 ∨ m = 9 ∨ m = 11 then 30
  else if 1 ≤ m ∧ m ≤ 12 then 31
  else 0

/-- Ordinal of `date.min` (January 1 of year 1, `datetime.MINYEAR`). -/
def pyDateMinOrd : Int := dayNumber 1 1 1

/-- Ordinal of `date.max` (December 31 of year 9999, `datetime.MAXYEAR`). -/
def pyDateMaxOrd : Int := dayNumber 9999 12 31

/-- Python `date ± timedelta` day arithmetic: the shifted day must stay
within `[date.min, date.max]`, else the subtraction/addition raises
`OverflowError`. -/
def pyDateCheck (z : Int) : Except String Int :=
  if z < pyDateMinOrd ∨ pyDateMaxOrd < z then
    .error "OverflowError: date value out of range"
  else .ok z

/-- The `datetime.date(y, m, d)` constructor: validates the year range
1-9999, the month range 1-12 and the day against the month length, raising
`ValueError` otherwise. -/
def pyDateMk (y m d : Int) : Except String Int :=
  if 1 ≤ y ∧ y ≤ 9999 ∧ 1 ≤ m ∧ m ≤ 12 ∧ 1 ≤ d ∧ d ≤ daysInMonth y m then
    .ok (dayNumber y m d)
  else .error "ValueError: date value out of range"

/-- `today_range` from `src/shared/dates.py` (no date arithmetic:
`datetime.combine` never raises). -/
def today_range (today : Int) : PyDateTime × PyDateTime :=
  (⟨today, timeMin⟩, ⟨today, timeMax⟩)

/-- `yesterday_range` from `src/shared/dates.py`:
`date.today() - timedelta(days=1)`, checked date arithmetic. -/
def yesterday_range (today : Int) : Except String (PyDateTime × PyDateTime) :=
  match pyDateCheck (today - 1) with
  | .error e => .error e
  | .ok yesterday => .ok (⟨yesterday, timeMin⟩, ⟨yesterday, timeMax⟩)

/-- `this_week_range` from `src/shared/dates.py`: Monday of the current week
to that Monday plus six days, each shift checked. -/
def this_week_range (today : Int) : Except String (PyDateTime × PyDateTime) :=
  match pyDateCheck (today - pyWeekday today) with
  | .error e => .error e
  | .ok start_of_week =>
    match pyDateCheck (start_of_week + 6) with
    | .error e => .error e
    | .ok end_of_week => .ok (⟨start_of_week, timeMin⟩, ⟨end_of_week, timeMax⟩)

/-- `last_week_range` from `src/shared/dates.py`: Monday of the previous
week to that Monday plus six days, each shift checked. -/
def last_week_range (today : Int) : Except String (PyDateTime × PyDateTime) :=
  match pyDateCheck (today - pyWeekday today) with
  | .error e => .error e
  | .ok start_of_this_week =>
    match pyDateCheck (start_of_this_week - 7) with
    | .error e => .error e
    | .ok start_of_last_week =>
      match pyDateCheck (start_of_last_week + 6) with
      | .error e => .error e
      | .ok end_of_last_week =>
        .ok (⟨start_of_last_week, timeMin⟩, ⟨end_of_last_week, timeMax⟩)

/-- Python `s.split("-")` on the character list (single-character separator,
empty parts kept). -/
def splitOnDash : List Char → List (List Char)
  | [] => [[]]
  | x :: xs =>
    match splitOnDash xs with
    | [] => [[]]
    | h :: t => if x = '-' then [] :: h :: t else (x :: h) :: t

/-- Numeric value of a digit string. -/
def natOfDigits (l : List Char) : Nat :=
  l.foldl (fun a c => a * 10 + (c.toNat - 48)) 0

/-- `datetime.strptime(s, "%Y-%m-%d")`, modelled from CPython `_strptime`:
`%Y` is exactly four digits, `%m` one or two digits valued 1-12, `%d` one or
two digits valued 1-31; the resulting triple must be a real calendar date
(day within the month, year at least 1), else `ValueError` (`none`).  A
parsed date always lies within years 1-9999. -/
def parseDate (s : String) : Option (Int × Int × Int) :=
  match splitOnDash s.toList with
  | [ys, ms, ds] =>
    if ys.length = 4 ∧ ys.all Char.isDigit
        ∧ (ms.length = 1 ∨ ms.length = 2) ∧ ms.all Char.isDigit
        ∧ (ds.length = 1 ∨ ds.length = 2) ∧ ds.all Char.isDigit then
      let y : Int := natOfDigits ys
      let m : Int := natOfDigits ms
      let d : Int := natOfDigits ds
      if 1 ≤ y ∧ 1 ≤ m ∧ m ≤ 12 ∧ 1 ≤ d ∧ d ≤ daysInMonth y m then
        some (y, m, d)
      else none
    else none
  | _ => none

/-- `custom_range` from `src/shared/dates.py`: parse both endpoints with
`%Y-%m-%d`, fail on a malformed date or on `start > end`, and return the
window from midnight of the first day to `time.max` of the last (the parsed
dates are in range by construction and `combine` performs no arithmetic). -/
def custom_range (from_date to_date : String) : Except String (PyDateTime × PyDateTime) :=
  match parseDate from_date, parseDate to_date with
  | some (y1, m1, d1), some (y2, m2, d2) =>
    let start_date := dayNumber y1 m1 d1
    let end_date := dayNumber y2 m2 d2
    if start_date > end_date then
      .error "Start date must be before or equal to end date"
    else
      .ok (⟨start_date, timeMin⟩, ⟨end_date, timeMax⟩)
  | _, _ => .error "Invalid date format. Use YYYY-MM-DD format."

/-- `last_n_days_range` from `src/shared/dates.py`: reject a day count below
1; `today - timedelta(days=days-1)` is checked date arithmetic (it raises
`OverflowError` below `date.min` for huge counts). -/
def last_n_days_range (today : Int) (days : Int) : Except String (PyDateTime × PyDateTime) :=
  if days < 1 then .error "Days must be at least 1"
  else
    match pyDateCheck (today - (days - 1)) with
    | .error e => .error e
    | .ok start_date => .ok (⟨start_date, timeMin⟩, ⟨today, timeMax⟩)

/-- `month_range` from `src/shared/dates.py`: reject a month outside 1-12;
`date(year, month, 1)` and `date(year+1, 1, 1)` / `date(year, month+1, 1)`
validate the year range 1-9999 (raising `ValueError` outside it), and the
trailing `- timedelta(days=1)` is checked arithmetic; the window runs from
the 1st to the day before the 1st of the next month. -/
def month_range (year month : Int) : Except String (PyDateTime × PyDateTime) :=
  if ¬ (1 ≤ month ∧ month ≤ 12) then .error "Month must be between 1 and 12"
  else
    match pyDateMk year month 1 with
    | .error e => .error e
    | .ok start_date =>
      match (if month = 12 then pyDateMk (year + 1) 1 1 else pyDateMk year (month + 1) 1) with
      | .error e => .error e
      | .ok next_first =>
        match pyDateCheck (next_first - 1) with
        | .error e => .error e
        | .ok end_date => .ok (⟨start_date, timeMin⟩, ⟨end_date, timeMax⟩)

/-- The window-shape invariant of §8: start at 00:00:00, end at 23:59:59
(field precision), and the start day no later than the end day. -/
def wellFormedWindow (w : PyDateTime × PyDateTime) : Prop :=
  w.1.tod.hour = 0 ∧ w.1.tod.minute = 0 ∧ w.1.tod.second = 0
    ∧ w.2.tod.hour = 23 ∧ w.2.tod.minute = 59 ∧ w.2.tod.second = 59
    ∧ w.1.day ≤ w.2.day

/-- Sanity: the epoch of `dayNumber` is 1970-01-01. -/
theorem dayNumber_epoch : dayNumber 1970 1 1 = 0 := by decide

set_option linter.unnecessarySeqFocus false in
/-- Every month of every year starts strictly before the next month. -/
theorem dayNumber_month_lt (y m : Int) (h1 : 1 ≤ m) (h2 : m ≤ 12) :
    dayNumber y m 1 < (if m = 12 then dayNumber (y + 1) 1 1 else dayNumber y (m + 1) 1) := by
  interval_cases m <;> simp only [dayNumber, monthAdj] <;> norm_num <;> omega

/-- Sanity: February 2024 (leap year) has 29 days in the day-number model. -/
theorem dayNumber_feb_2024 : dayNumber 2024 2 29 = dayNumber 2024 3 1 - 1 := by decide

theorem pyDateCheck_ok (z : Int) (h1 : pyDateMinOrd ≤ z) (h2 : z ≤ pyDateMaxOrd) :
    pyDateCheck z = .ok z := by
  rw [pyDateCheck, if_neg (by omega)]

theorem pyDateCheck_error_iff (z : Int) :
    (∃ e, pyDateCheck z = .error e) ↔ (z < pyDateMinOrd ∨ pyDateMaxOrd < z) := by
  rw [pyDateCheck]
  by_cases h : z < pyDateMinOrd ∨ pyDateMaxOrd < z
  · rw [if_pos h]
    exact ⟨fun _ => h, fun _ => ⟨_, rfl⟩⟩
  · rw [if_neg h]
    exact ⟨fun ⟨e, he⟩ => Except.noConfusion he, fun hh => absurd hh h⟩

theorem daysInMonth_pos (y m : Int) (h1 : 1 ≤ m) (h2 : m ≤ 12) :
    1 ≤ daysInMonth y m := by
  rw [daysInMonth]
  by_cases hm2 : m = 2
  · rw [if_pos hm2]
    by_cases hl : isLeapYear y = true
    · rw [if_pos hl]; norm_num
    · rw [if_neg hl]; norm_num
  · rw [if_neg hm2]
    by_cases hm30 : m = 4 ∨ m = 6 ∨ m = 9 ∨ m = 11
    · rw [if_pos hm30]; norm_num
    · rw [if_neg hm30, if_pos ⟨h1, h2⟩]; norm_num

set_option linter.unnecessarySeqFocus false in
/-- For a valid year and any month (January only from year 2 on), the day
before the first of that month lies within `date.min`-`date.max`. -/
theorem dayNumber_first_pred_in_range (y m' : Int) (hm1 : 1 ≤ m') (hm2 : m' ≤ 12)
    (hy1 : 1 ≤ y) (hy2 : y ≤ 9999) (h2 : 2 ≤ m' ∨ 2 ≤ y) :
    pyDateMinOrd ≤ dayNumber y m' 1 - 1 ∧ dayNumber y m' 1 - 1 ≤ pyDateMaxOrd := by
  rw [pyDateMinOrd, pyDateMaxOrd]
  interval_cases m' <;> simp only [dayNumber, monthAdj] <;> norm_num <;> omega

/-- Bounds of the weekday number. -/
theorem pyWeekday_bounds (t : Int) : 0 ≤ pyWeekday t ∧ pyWeekday t ≤ 6 := by
  rw [pyWeekday]
  constructor
  · exact Int.emod_nonneg _ (by norm_num)
  · have := Int.emod_lt_of_pos (t + 3) (show (0 : Int) < 7 from by norm_num)
    omega

/-- Counterexample to C4 as stated: construction also fails on dates outside
Python's supported year range 1-9999 — `month_range 0 5` fails with the
`date(0, 5, 1)` constructor's `ValueError` although the month is within
1-12, and `last_n_days_range 20000 1000000` fails with the date
subtraction's `OverflowError` although the day count is at least 1 — so the
stated error conditions are not exhaustive. -/
theorem date_range_year_bounds_counterexample :
    ((1 : Int) ≤ 5 ∧ (5 : Int) ≤ 12)
    ∧ (∃ e, month_range 0 5 = Except.error e)
    ∧ ((1 : Int) ≤ 1000000)
    ∧ (∃ e, last_n_days_range 20000 1000000 = Except.error e) := by
  refine ⟨⟨by norm_num, by norm_num⟩,
    ⟨"ValueError: date value out of range", rfl⟩, by norm_num,
    ⟨"OverflowError: date value out of range", rfl⟩⟩

/-- C4 (amended): every time-window constructor returns a window whose start
is 00:00:00 of the first day and whose end is 23:59:59 of the last day with
`start ≤ end` — unconditionally for today and for custom `from ≤ to` windows
(parsed dates are in range by construction), for the other today-based
constructors (yesterday, this-week, last-week, last-N-days with `days ≥ 1`)
whenever the shifted days stay within Python's supported date range (years
1-9999), and for month with `month ∈ 1..12`, `1 ≤ year ≤ 9999` and not
(`month = 12` and `year = 9999`); `last_n_days_range 1` equals `today_range`
for every in-range today and `month_range 2024 2` ends on February 29.
Construction fails exactly when the custom range is malformed or has start
after end, the month is outside 1-12, the day count is below 1, or a
constructed/shifted date falls outside years 1-9999 (the date constructor's
`ValueError` / the date arithmetic's `OverflowError`). -/
theorem date_range_constructors :
    (∀ t : Int, wellFormedWindow (today_range t))
    ∧ (∀ t : Int, pyDateMinOrd + 13 ≤ t → t + 6 ≤ pyDateMaxOrd →
        (∃ w, yesterday_range t = .ok w ∧ wellFormedWindow w)
        ∧ (∃ w, this_week_range t = .ok w ∧ wellFormedWindow w)
        ∧ (∃ w, last_week_range t = .ok w ∧ wellFormedWindow w))
    ∧ (∀ t : Int, (∃ e, yesterday_range t = .error e) ↔
        (t - 1 < pyDateMinOrd ∨ pyDateMaxOrd < t - 1))
    ∧ (∀ t : Int, (∃ e, this_week_range t = .error e) ↔
        ((t - pyWeekday t < pyDateMinOrd ∨ pyDateMaxOrd < t - pyWeekday t)
          ∨ (t - pyWeekday t + 6 < pyDateMinOrd
              ∨ pyDateMaxOrd < t - pyWeekday t + 6)))
    ∧ (∀ t : Int, (∃ e, last_week_range t = .error e) ↔
        ((t - pyWeekday t < pyDateMinOrd ∨ pyDateMaxOrd < t - pyWeekday t)
          ∨ (t - pyWeekday t - 7 < pyDateMinOrd
              ∨ pyDateMaxOrd < t - pyWeekday t - 7)
          ∨ (t - pyWeekday t - 1 < pyDateMinOrd
              ∨ pyDateMaxOrd < t - pyWeekday t - 1)))
    ∧ (∀ t d : Int, 1 ≤ d → pyDateMinOrd ≤ t - (d - 1) → t - (d - 1) ≤ pyDateMaxOrd →
        last_n_days_range t d = .ok (⟨t - (d - 1), timeMin⟩, ⟨t, timeMax⟩)
          ∧ wellFormedWindow (⟨t - (d - 1), timeMin⟩, ⟨t, timeMax⟩))
    ∧ (∀ t d : Int, (∃ e, last_n_days_range t d = .error e) ↔
        (d < 1 ∨ t - (d - 1) < pyDateMinOrd ∨ pyDateMaxOrd < t - (d - 1)))
    ∧ (∀ t : Int, pyDateMinOrd ≤ t → t ≤ pyDateMaxOrd →
        last_n_days_range t 1 = .ok (today_range t))
    ∧ (∀ y m : Int, (∃ e, month_range y m = .error e) ↔
        (¬ (1 ≤ m ∧ m ≤ 12) ∨ ¬ (1 ≤ y ∧ y ≤ 9999) ∨ (m = 12 ∧ y = 9999)))
    ∧ (∀ y m : Int, ∀ w, month_range y m = .ok w → wellFormedWindow w)
    ∧ month_range 2024 2
        = .ok (⟨dayNumber 2024 2 1, timeMin⟩, ⟨dayNumber 2024 2 29, timeMax⟩)
    ∧ (∀ f t : String, ∀ a b, parseDate f = some a → parseDate t = some b →
        dayNumber a.1 a.2.1 a.2.2 ≤ dayNumber b.1 b.2.1 b.2.2 →
        custom_range f t
          = .ok (⟨dayNumber a.1 a.2.1 a.2.2, timeMin⟩, ⟨dayNumber b.1 b.2.1 b.2.2, timeMax⟩))
    ∧ (∀ f t : String, (∃ e, custom_range f t = .error e) ↔
        (parseDate f = none ∨ parseDate t = none
          ∨ ∃ a b, parseDate f = some a ∧ parseDate t = some b
              ∧ dayNumber b.1 b.2.1 b.2.2 < dayNumber a.1 a.2.1 a.2.2))
    ∧ (∀ f t : String, ∀ w, custom_range f t = .ok w → wellFormedWindow w) := by
  have hwf : ∀ s e : Int, s ≤ e → wellFormedWindow (⟨s, timeMin⟩, ⟨e, timeMax⟩) := by
    intro s e h
    exact ⟨rfl, rfl, rfl, rfl, rfl, rfl, h⟩
  refine ⟨?_, ?_, ?_, ?_, ?_, ?_, ?_, ?_, ?_, ?_, ?_, ?_, ?_, ?_⟩
  · intro t; exact hwf t t le_rfl
  · intro t h13 h6
    obtain ⟨hw0, hw6⟩ := pyWeekday_bounds t
    refine ⟨?_, ?_, ?_⟩
    · rw [yesterday_range, pyDateCheck_ok _ (by omega) (by omega)]
      exact ⟨_, rfl, hwf _ _ le_rfl⟩
    · rw [this_week_range, pyDateCheck_ok _ (by omega) (by omega)]
      dsimp only
      rw [pyDateCheck_ok _ (by omega) (by omega)]
      exact ⟨_, rfl, hwf _ _ (by omega)⟩
    · rw [last_week_range, pyDateCheck_ok _ (by omega) (by omega)]
      dsimp only
      rw [pyDateCheck_ok _ (by omega) (by omega)]
      dsimp only
      rw [pyDateCheck_ok _ (by omega) (by omega)]
      exact ⟨_, rfl, hwf _ _ (by omega)⟩
  · intro t
    rw [yesterday_range]
    by_cases h : t - 1 < pyDateMinOrd ∨ pyDateMaxOrd < t - 1
    · rw [show pyDateCheck (t - 1) = .error "OverflowError: date value out of range" from
        by rw [pyDateCheck, if_pos h]]
      exact ⟨fun _ => h, fun _ => ⟨_, rfl⟩⟩
    · rw [pyDateCheck_ok _ (by omega) (by omega)]
      exact ⟨fun ⟨e, he⟩ => Except.noConfusion he, fun hh => absurd hh h⟩
  · intro t
    rw [this_week_range]
    by_cases hA : t - pyWeekday t < pyDateMinOrd ∨ pyDateMaxOrd < t - pyWeekday t
    · rw [show pyDateCheck (t - pyWeekday t)
          = .error "OverflowError: date value out of range" from
        by rw [pyDateCheck, if_pos hA]]
      exact ⟨fun _ => Or.inl hA, fun _ => ⟨_, rfl⟩⟩
    · rw [pyDateCheck_ok _ (by omega) (by omega)]
      dsimp only
      by_cases hB : t - pyWeekday t + 6 < pyDateMinOrd
          ∨ pyDateMaxOrd < t - pyWeekday t + 6
      · rw [show pyDateCheck (t - pyWeekday t + 6)
            = .error "OverflowError: date value out of range" from
          by rw [pyDateCheck, if_pos hB]]
        exact ⟨fun _ => Or.inr hB, fun _ => ⟨_, rfl⟩⟩
      · rw [pyDateCheck_ok _ (by omega) (by omega)]
        refine ⟨fun ⟨e, he⟩ => Except.noConfusion he, fun hh => ?_⟩
        rcases hh with hh | hh
        · exact absurd hh hA
        · exact absurd hh hB
  · intro t
    rw [last_week_range]
    by_cases hA : t - pyWeekday t < pyDateMinOrd ∨ pyDateMaxOrd < t - pyWeekday t
    · rw [show pyDateCheck (t - pyWeekday t)
          = .error "OverflowError: date value out of range" from
        by rw [pyDateCheck, if_pos hA]]
      exact ⟨fun _ => Or.inl hA, fun _ => ⟨_, rfl⟩⟩
    · rw [pyDateCheck_ok _ (by omega) (by omega)]
      dsimp only
      by_cases hB : t - pyWeekday t - 7 < pyDateMinOrd
          ∨ pyDateMaxOrd < t - pyWeekday t - 7
      · rw [show pyDateCheck (t - pyWeekday t - 7)
            = .error "OverflowError: date value out of range" from
          by rw [pyDateCheck, if_pos hB]]
        exact ⟨fun _ => Or.inr (Or.inl hB), fun _ => ⟨_, rfl⟩⟩
      · rw [pyDateCheck_ok _ (by omega) (by omega)]
        dsimp only
        by_cases hC : t - pyWeekday t - 7 + 6 < pyDateMinOrd
            ∨ pyDateMaxOrd < t - pyWeekday t - 7 + 6
        · rw [show pyDateCheck (t - pyWeekday t - 7 + 6)
              = .error "OverflowError: date value out of range" from
            by rw [pyDateCheck, if_pos hC]]
          refine ⟨fun _ => Or.inr (Or.inr ?_), fun _ => ⟨_, rfl⟩⟩
          omega
        · rw [pyDateCheck_ok _ (by omega) (by omega)]
          refine ⟨fun ⟨e, he⟩ => Except.noConfusion he, fun hh => ?_⟩
          rcases hh with hh | hh | hh
          · exact absurd hh hA
          · exact absurd hh hB
          · exact (hC (by omega)).elim
  · intro t d hd hlo hhi
    rw [last_n_days_range, if_neg (by omega), pyDateCheck_ok _ hlo hhi]
    exact ⟨rfl, hwf _ _ (by omega)⟩
  · intro t d
    by_cases hd : d < 1
    · rw [last_n_days_range, if_pos hd]
      exact ⟨fun _ => Or.inl hd, fun _ => ⟨_, rfl⟩⟩
    · rw [last_n_days_range, if_neg hd]
      by_cases hov : t - (d - 1) < pyDateMinOrd ∨ pyDateMaxOrd < t - (d - 1)
      · rw [show pyDateCheck (t - (d - 1))
            = .error "OverflowError: date value out of range" from
          by rw [pyDateCheck, if_pos hov]]
        exact ⟨fun _ => Or.inr hov, fun _ => ⟨_, rfl⟩⟩
      · rw [pyDateCheck_ok _ (by omega) (by omega)]
        refine ⟨fun ⟨e, he⟩ => Except.noConfusion he, fun hh => ?_⟩
        rcases hh with hh | hh
        · exact absurd hh hd
        · exact absurd hh hov
  · intro t hlo hhi
    rw [last_n_days_range, if_neg (by omega), pyDateCheck_ok _ (by omega) (by omega)]
    norm_num [today_range]
  · intro y m
    by_cases hm : 1 ≤ m ∧ m ≤ 12
    · rw [month_range, if_neg (not_not_intro hm)]
      by_cases hy : 1 ≤ y ∧ y ≤ 9999
      · rw [show pyDateMk y m 1 = .ok (dayNumber y m 1) from by
          rw [pyDateMk, if_pos ⟨hy.1, hy.2, hm.1, hm.2, le_refl 1,
            daysInMonth_pos y m hm.1 hm.2⟩]]
        dsimp only
        by_cases h12 : m = 12
        · rw [if_pos h12]
          by_cases hy99 : y = 9999
          · rw [show pyDateMk (y + 1) 1 1 = .error "ValueError: date value out of range" from
              by rw [pyDateMk, if_neg (fun hc => by omega)]]
            exact ⟨fun _ => Or.inr (Or.inr ⟨h12, hy99⟩), fun _ => ⟨_, rfl⟩⟩
          · rw [show pyDateMk (y + 1) 1 1 = .ok (dayNumber (y + 1) 1 1) from by
              rw [pyDateMk, if_pos ⟨by omega, by omega, by norm_num, by norm_num,
                le_refl 1, daysInMonth_pos _ 1 (by norm_num) (by norm_num)⟩]]
            dsimp only
            have hrange := dayNumber_first_pred_in_range (y + 1) 1 (by norm_num)
              (by norm_num) (by omega) (by omega) (Or.inr (by omega))
            rw [pyDateCheck_ok _ hrange.1 hrange.2]
            refine ⟨fun ⟨e, he⟩ => Except.noConfusion he, fun hh => ?_⟩
            rcases hh with hh | hh | hh
            · exact absurd hm hh
            · exact absurd hy hh
            · exact absurd hh.2 hy99
        · rw [if_neg h12]
          rw [show pyDateMk y (m + 1) 1 = .ok (dayNumber y (m + 1) 1) from by
            rw [pyDateMk, if_pos ⟨hy.1, hy.2, by omega, by omega, le_refl 1,
              daysInMonth_pos y (m + 1) (by omega) (by omega)⟩]]
          dsimp only
          have hrange := dayNumber_first_pred_in_range y (m + 1) (by omega)
            (by omega) hy.1 hy.2 (Or.inl (by omega))
          rw [pyDateCheck_ok _ hrange.1 hrange.2]
          refine ⟨fun ⟨e, he⟩ => Except.noConfusion he, fun hh => ?_⟩
          rcases hh with hh | hh | hh
          · exact absurd hm hh
          · exact absurd hy hh
          · exact absurd hh.1 h12
      · rw [show pyDateMk y m 1 = .error "ValueError: date value out of range" from
          by rw [pyDateMk, if_neg (fun hc => hy ⟨hc.1, hc.2.1⟩)]]
        exact ⟨fun _ => Or.inr (Or.inl hy), fun _ => ⟨_, rfl⟩⟩
    · rw [month_range, if_pos hm]
      exact ⟨fun _ => Or.inl hm, fun _ => ⟨_, rfl⟩⟩
  · intro y m w hok
    by_cases hm : 1 ≤ m ∧ m ≤ 12
    · rw [month_range, if_neg (not_not_intro hm)] at hok
      by_cases hy : 1 ≤ y ∧ y ≤ 9999
      · rw [show pyDateMk y m 1 = .ok (dayNumber y m 1) from by
          rw [pyDateMk, if_pos ⟨hy.1, hy.2, hm.1, hm.2, le_refl 1,
            daysInMonth_pos y m hm.1 hm.2⟩]] at hok
        dsimp only at hok
        have hlt := dayNumber_month_lt y m hm.1 hm.2
        by_cases h12 : m = 12
        · rw [if_pos h12] at hok
          rw [if_pos h12] at hlt
          by_cases hy99 : y = 9999
          · rw [show pyDateMk (y + 1) 1 1 = .error "ValueError: date value out of range" from
              by rw [pyDateMk, if_neg (fun hc => by omega)]] at hok
            exact Except.noConfusion hok
          · rw [show pyDateMk (y + 1) 1 1 = .ok (dayNumber (y + 1) 1 1) from by
              rw [pyDateMk, if_pos ⟨by omega, by omega, by norm_num, by norm_num,
                le_refl 1, daysInMonth_pos _ 1 (by norm_num) (by norm_num)⟩]] at hok
            dsimp only at hok
            have hrange := dayNumber_first_pred_in_range (y + 1) 1 (by norm_num)
              (by norm_num) (by omega) (by omega) (Or.inr (by omega))
            rw [pyDateCheck_ok _ hrange.1 hrange.2] at hok
            simp only [Except.ok.injEq] at hok
            subst hok
            exact hwf _ _ (by omega)
        · rw [if_neg h12] at hok
          rw [if_neg h12] at hlt
          rw [show pyDateMk y (m + 1) 1 = .ok (dayNumber y (m + 1) 1) from by
            rw [pyDateMk, if_pos ⟨hy.1, hy.2, by omega, by omega, le_refl 1,
              daysInMonth_pos y (m + 1) (by omega) (by omega)⟩]] at hok
          dsimp only at hok
          have hrange := dayNumber_first_pred_in_range y (m + 1) (by omega)
            (by omega) hy.1 hy.2 (Or.inl (by omega))
          rw [pyDateCheck_ok _ hrange.1 hrange.2] at hok
          simp only [Except.ok.injEq] at hok
          subst hok
          exact hwf _ _ (by omega)
      · rw [show pyDateMk y m 1 = .error "ValueError: date value out of range" from
          by rw [pyDateMk, if_neg (fun hc => hy ⟨hc.1, hc.2.1⟩)]] at hok
        exact Except.noConfusion hok
    · rw [month_range, if_pos hm] at hok
      exact Except.noConfusion hok
  · rfl
  · intro f t a b hf ht hle
    rcases a with ⟨y1, m1, d1⟩
    rcases b with ⟨y2, m2, d2⟩
    simp only [custom_range, hf, ht]
    rw [if_neg (by simp at hle ⊢; omega)]
  · intro f t
    constructor
    · rintro ⟨e, he⟩
      rcases hf : parseDate f with _ | a
      · exact Or.inl rfl
      · rcases ht : parseDate t with _ | b
        · exact Or.inr (Or.inl rfl)
        · rcases a with ⟨y1, m1, d1⟩
          rcases b with ⟨y2, m2, d2⟩
          simp only [custom_range, hf, ht] at he
          by_cases hgt : dayNumber y1 m1 d1 > dayNumber y2 m2 d2
          · exact Or.inr (Or.inr ⟨(y1, m1, d1), (y2, m2, d2), rfl, rfl, hgt⟩)
          · rw [if_neg hgt] at he
            exact Except.noConfusion he
    · rintro (hf | ht | ⟨a, b, hf, ht, hlt⟩)
      · rcases ht : parseDate t with _ | b
        · refine ⟨"Invalid date format. Use YYYY-MM-DD format.", ?_⟩
          simp only [custom_range, hf, ht]
        · refine ⟨"Invalid date format. Use YYYY-MM-DD format.", ?_⟩
          simp only [custom_range, hf, ht]
      · rcases hf : parseDate f with _ | a
        · refine ⟨"Invalid date format. Use YYYY-MM-DD format.", ?_⟩
          simp only [custom_range, hf, ht]
        · rcases a with ⟨y1, m1, d1⟩
          refine ⟨"Invalid date format. Use YYYY-MM-DD format.", ?_⟩
          simp only [custom_range, hf, ht]
      · rcases a with ⟨y1, m1, d1⟩
        rcases b with ⟨y2, m2, d2⟩
        refine ⟨"Start date must be before or equal to end date", ?_⟩
        simp only [custom_range, hf, ht]
        rw [if_pos (by simp at hlt ⊢; omega)]
  · intro f t w hok
    rcases hf : parseDate f with _ | a
    · simp only [custom_range, hf] at hok
      exact Except.noConfusion hok
    · rcases ht : parseDate t with _ | b
      · rcases a with ⟨y1, m1, d1⟩
        simp only [custom_range, hf, ht] at hok
        exact Except.noConfusion hok
      · rcases a with ⟨y1, m1, d1⟩
        rcases b with ⟨y2, m2, d2⟩
        simp only [custom_range, hf, ht] at hok
        by_cases hgt : dayNumber y1 m1 d1 > dayNumber y2 m2 d2
        · rw [if_pos hgt] at hok
          exact Except.noConfusion hok
        · rw [if_neg hgt] at hok
          simp only [Except.ok.injEq] at hok
          subst hok
          exact hwf _ _ (by omega)

/-- Witness for `date_range_constructors` at concrete inputs. -/
theorem date_range_constructors_witness :
    ((∃ w, yesterday_range 20000 = .ok w ∧ wellFormedWindow w)
      ∧ (∃ w, this_week_range 20000 = .ok w ∧ wellFormedWindow w)
      ∧ (∃ w, last_week_range 20000 = .ok w ∧ wellFormedWindow w))
    ∧ (last_n_days_range 20000 7 = .ok (⟨19994, timeMin⟩, ⟨20000, timeMax⟩)
      ∧ wellFormedWindow (⟨(19994 : Int), timeMin⟩, ⟨(20000 : Int), timeMax⟩))
    ∧ custom_range "2024-01-05" "2024-02-01"
        = .ok (⟨dayNumber 2024 1 5, timeMin⟩, ⟨dayNumber 2024 2 1, timeMax⟩)
    ∧ (∃ e, custom_range "2024-02-01" "2024-01-01" = .error e)
    ∧ (∃ e, month_range 2024 13 = .error e)
    ∧ (∃ e, month_range 9999 12 = .error e) := by
  have h := date_range_constructors
  refine ⟨h.2.1 20000 (by decide) (by decide), ?_, ?_, ?_, ?_, ?_⟩
  · have := h.2.2.2.2.2.1 20000 7 (by norm_num) (by decide) (by decide)
    simpa using this
  · exact h.2.2.2.2.2.2.2.2.2.2.2.1 "2024-01-05" "2024-02-01" (2024, 1, 5) (2024, 2, 1)
      (by decide) (by decide) (by decide)
  · exact (h.2.2.2.2.2.2.2.2.2.2.2.2.1 "2024-02-01" "2024-01-01").mpr
      (Or.inr (Or.inr ⟨(2024, 2, 1), (2024, 1, 1), by decide, by decide, by decide⟩))
  · exact (h.2.2.2.2.2.2.2.2.1 2024 13).mpr (Or.inl (by omega))
  · exact (h.2.2.2.2.2.2.2.2.1 9999 12).mpr (Or.inr (Or.inr ⟨rfl, rfl⟩))

/-! ## Commits data model (`src/report/git/commits.py`)

`CommitInfo` is the NamedTuple produced by the Repository Accessor: short
hash, author display name, minute-precision date string, first message line,
and the origin repository label (default `"."`). -/

/-- `CommitInfo` from `src/report/git/commits.py`. -/
structure CommitInfo where
  hash : String
  author : String
  date : String
  message : String
  repo : String := "."
deriving DecidableEq, Repr

/-! ## Ticket extraction (`src/report/utils/tickets.py`)

`extract_ticket_from_message` tries the four default regular expressions in
order, case-insensitively, with `re.search` semantics (leftmost start
position wins; at a fixed position quantifiers are greedy with
backtracking), returning the first capture group.  Each default pattern is
compiled here into a direct scanner over the character list:

* `([A-Z]{2,10}-\d+)` — `jiraAt` (the group is the whole match);
* `#(\d+)` — `hashNumAt` (the group is the digit run);
* `GH-(\d+)` — `ghAt`;
* `(?:ticket|issue)[:\s]+#?(\d+)` — `ticketIssueAt`.

Only the default pattern list (the `patterns=None` path of the source) is
modelled; caller-supplied pattern lists are not. -/

/-- Try pattern `[A-Z]{2,10}-\d+` anchored at the head, attempting the
letter-count `len` first and backtracking downwards (greedy `{2,10}`).
`IGNORECASE` makes `[A-Z]` accept both cases (`Char.isAlpha`). -/
def jiraAtLen (l : List Char) : Nat → Option (List Char)
  | 0 => none
  | 1 => none
  | Nat.succ n =>
    let len := n + 1
    let pre := l.take len
    (if pre.length = len ∧ pre.all Char.isAlpha then
      match l.drop len with
      | '-' :: rest =>
        let ds := rest.takeWhile Char.isDigit
        if ds.isEmpty then none else some (pre ++ '-' :: ds)
      | _ => none
    else none).orElse (fun _ => jiraAtLen l n)

/-- `([A-Z]{2,10}-\d+)` anchored at the head of `l`. -/
def jiraAt (l : List Char) : Option (List Char) := jiraAtLen l 10

/-- `#(\d+)` anchored at the head of `l`; returns the capture group. -/
def hashNumAt : List Char → Option (List Char)
  | '#' :: rest =>
    let ds := rest.takeWhile Char.isDigit
    if ds.isEmpty then none else some ds
  | _ => none

/-- `GH-(\d+)` (case-insensitive) anchored at the head of `l`. -/
def ghAt : List Char → Option (List Char)
  | g :: h :: '-' :: rest =>
    if (g = 'G' ∨ g = 'g') ∧ (h = 'H' ∨ h = 'h') then
      let ds := rest.takeWhile Char.isDigit
      if ds.isEmpty then none else some ds
    else none
  | _ => none

/-- Case-insensitive literal prefix test. -/
def ciPrefix (w : List Char) (l : List Char) : Bool :=
  (l.take w.length).map Char.toLower == w

/-- `[:\s]` — colon or (ASCII) whitespace, as in the `re` module's `\s`. -/
def isSpaceColon (c : Char) : Bool :=
  c = ':' || c = ' ' || c = '\t' || c = '\n' || c = '\r' || c = '\x0b' || c = '\x0c'

/-- `(?:ticket|issue)[:\s]+#?(\d+)` (case-insensitive) anchored at the head. -/
def ticketIssueAt (l : List Char) : Option (List Char) :=
  let n : Option Nat :=
    if ciPrefix "ticket".toList l then some 6
    else if ciPrefix "issue".toList l then some 5
    else none
  match n with
  | none => none
  | some n =>
    let rest := l.drop n
    let seps := rest.takeWhile isSpaceColon
    if seps.isEmpty then none
    else
      let rest2 := rest.drop seps.length
      let rest3 := match rest2 with
        | '#' :: r => r
        | r => r
      let ds := rest3.takeWhile Char.isDigit
      if ds.isEmpty then none else some ds

/-- `re.search`: try the anchored matcher at each start position, leftmost
first. -/
def searchFrom (matchAt : List Char → Option (List Char)) : List Char → Option (List Char)
  | [] => matchAt []
  | c :: t =>
    match matchAt (c :: t) with
    | some r => some r
    | none => searchFrom matchAt (c :: t).tail

/-- `extract_ticket_from_message` from `src/report/utils/tickets.py`
(default patterns): the four default patterns are tried in order, first
match wins; the returned identifier is the capture group (patterns 2-4) or
the whole match (pattern 1 captures the whole match). -/
def extract_ticket_from_message (message : String) : Option String :=
  match searchFrom jiraAt message.toList with
  | some r => some (String.mk r)
  | none =>
    match searchFrom hashNumAt message.toList with
    | some r => some (String.mk r)
    | none =>
      match searchFrom ghAt message.toList with
      | some r => some (String.mk r)
      | none =>
        match searchFrom ticketIssueAt message.toList with
        | some r => some (String.mk r)
        | none => none

/-- `TicketCommits` from `src/report/utils/tickets.py`. -/
structure TicketCommits where
  ticket_id : String
  commits : List CommitInfo
deriving DecidableEq, Repr

/-- The canonical ticket key of a commit: the extracted identifier,
upper-cased (the normalisation done by `group_commits_by_ticket`). -/
def ticketKeyOf (c : CommitInfo) : Option String :=
  (extract_ticket_from_message c.message).map pyToUpper

/-- `ticket_groups[ticket_id].append(commit)`, creating the key at the end
of the insertion-ordered dict when absent. -/
def addToTicketGroups (gs : List (String × List CommitInfo)) (tid : String)
    (c : CommitInfo) : List (String × List CommitInfo) :=
  if gs.any (fun p => p.1 = tid) then
    gs.map (fun p => if p.1 = tid then (p.1, p.2 ++ [c]) else p)
  else gs ++ [(tid, [c])]

/-- One iteration of the grouping loop of `group_commits_by_ticket`. -/
def ticketStep (acc : List (String × List CommitInfo) × List CommitInfo)
    (c : CommitInfo) : List (String × List CommitInfo) × List CommitInfo :=
  match extract_ticket_from_message c.message with
  | some tid0 => (addToTicketGroups acc.1 (pyToUpper tid0) c, acc.2)
  | none => (acc.1, acc.2 ++ [c])

/-- `group_commits_by_ticket` from `src/report/utils/tickets.py` (default
patterns): group commits under their upper-cased ticket id in an
insertion-ordered dict, collect unmatched commits in input order, and return
the groups sorted ascending by ticket id (`sorted(ticket_groups.items())`). -/
def group_commits_by_ticket (commits_info : List CommitInfo) :
    List TicketCommits × List CommitInfo :=
  let st := commits_info.foldl ticketStep ([], [])
  ((sortAscBy Prod.fst st.1).map (fun p => ⟨p.1, p.2⟩), st.2)

/-- Loop invariant of the ticket-grouping fold, relative to the prefix of
commits already processed. -/
def TicketInv (processed : List CommitInfo)
    (gs : List (String × List CommitInfo)) (un : List CommitInfo) : Prop :=
  (∀ p ∈ gs, p.2 = processed.filter (fun c => ticketKeyOf c = some p.1))
  ∧ (gs.map Prod.fst).Nodup
  ∧ (∀ t, t ∈ gs.map Prod.fst ↔ ∃ c ∈ processed, ticketKeyOf c = some t)
  ∧ un = processed.filter (fun c => ticketKeyOf c = none)

theorem ticketStep_inv (processed : List CommitInfo)
    (gs : List (String × List CommitInfo)) (un : List CommitInfo)
    (c : CommitInfo) (h : TicketInv processed gs un) :
    TicketInv (processed ++ [c]) (ticketStep (gs, un) c).1 (ticketStep (gs, un) c).2 := by
  obtain ⟨hbuck, hnd, hkeys, hun⟩ := h
  cases hx : extract_ticket_from_message c.message with
  | none =>
    have hkc : ticketKeyOf c = none := by simp [ticketKeyOf, hx]
    simp only [ticketStep, hx]
    refine ⟨?_, hnd, ?_, ?_⟩
    · intro p hp
      rw [List.filter_append]
      have hne : ¬ (ticketKeyOf c = some p.1) := by simp [hkc]
      simp [List.filter_cons, hne, hbuck p hp]
    · intro t
      rw [hkeys t]
      constructor
      · rintro ⟨c2, hc2, hk2⟩
        exact ⟨c2, by simp [hc2], hk2⟩
      · rintro ⟨c2, hc2, hk2⟩
        rcases List.mem_append.mp hc2 with hc2 | hc2
        · exact ⟨c2, hc2, hk2⟩
        · simp only [List.mem_singleton] at hc2
          subst hc2
          rw [hkc] at hk2
          exact Option.noConfusion hk2
    · rw [List.filter_append, hun]
      simp [List.filter_cons, hkc]
  | some tid0 =>
    have hkc : ticketKeyOf c = some (pyToUpper tid0) := by simp [ticketKeyOf, hx]
    simp only [ticketStep, hx]
    by_cases hmem : gs.any (fun p => p.1 = pyToUpper tid0)
    · -- existing key: append to its bucket
      have hfst : (gs.map (fun p => if p.1 = pyToUpper tid0 then (p.1, p.2 ++ [c]) else p)).map
          Prod.fst = gs.map Prod.fst := by
        rw [List.map_map]
        apply List.map_congr_left
        intro p _
        by_cases hp1 : p.1 = pyToUpper tid0 <;> simp [hp1]
      refine ⟨?_, ?_, ?_, ?_⟩
      · intro p hp
        simp only [addToTicketGroups, if_pos hmem] at hp
        rcases List.mem_map.mp hp with ⟨q, hq, hqe⟩
        by_cases hq1 : q.1 = pyToUpper tid0
        · rw [if_pos hq1] at hqe
          subst hqe
          rw [List.filter_append]
          have hceq : ticketKeyOf c = some q.1 := by rw [hkc, hq1]
          simp [List.filter_cons, hceq, hbuck q hq]
        · rw [if_neg hq1] at hqe
          subst hqe
          rw [List.filter_append]
          have hcne : ¬ (ticketKeyOf c = some q.1) := by
            rw [hkc]
            simp only [Option.some.injEq]
            intro hcontra
            exact hq1 hcontra.symm
          simp [List.filter_cons, hcne, hbuck q hq]
      · simp only [addToTicketGroups, if_pos hmem]
        rw [hfst]
        exact hnd
      · intro t
        simp only [addToTicketGroups, if_pos hmem]
        rw [hfst, hkeys t]
        constructor
        · rintro ⟨c2, hc2, hk2⟩
          exact ⟨c2, by simp [hc2], hk2⟩
        · rintro ⟨c2, hc2, hk2⟩
          rcases List.mem_append.mp hc2 with hc2 | hc2
          · exact ⟨c2, hc2, hk2⟩
          · simp only [List.mem_singleton] at hc2
            subst hc2
            rw [hkc] at hk2
            have hteq : pyToUpper tid0 = t := Option.some.inj hk2
            have htin : pyToUpper tid0 ∈ gs.map Prod.fst := by
              rcases List.any_eq_true.mp hmem with ⟨p, hp, hpt⟩
              simp only [decide_eq_true_eq] at hpt
              exact List.mem_map.mpr ⟨p, hp, hpt⟩
            rcases (hkeys (pyToUpper tid0)).mp htin with ⟨c3, hc3, hk3⟩
            exact ⟨c3, hc3, hteq ▸ hk3⟩
      · rw [List.filter_append, hun]
        simp [List.filter_cons, hkc]
    · -- new key: append a fresh bucket at the end
      have hnotin : pyToUpper tid0 ∉ gs.map Prod.fst := by
        intro hin
        rcases List.mem_map.mp hin with ⟨p, hp, hpt⟩
        exact hmem (List.any_eq_true.mpr ⟨p, hp, by simp [hpt]⟩)
      refine ⟨?_, ?_, ?_, ?_⟩
      · intro p hp
        simp only [addToTicketGroups, if_neg hmem] at hp
        rcases List.mem_append.mp hp with hp | hp
        · rw [List.filter_append]
          have hne : ¬ (ticketKeyOf c = some p.1) := by
            rw [hkc]
            simp only [Option.some.injEq]
            intro hcontra
            exact hnotin (hcontra ▸ List.mem_map.mpr ⟨p, hp, rfl⟩)
          simp [List.filter_cons, hne, hbuck p hp]
        · simp only [List.mem_singleton] at hp
          subst hp
          rw [List.filter_append]
          have hnone : processed.filter
              (fun c2 => ticketKeyOf c2 = some (pyToUpper tid0)) = [] := by
            rw [List.filter_eq_nil_iff]
            intro c2 hc2
            simp only [decide_eq_true_eq]
            intro hk2
            exact hnotin ((hkeys (pyToUpper tid0)).mpr ⟨c2, hc2, hk2⟩)
          simp [List.filter_cons, hkc, hnone]
      · simp only [addToTicketGroups, if_neg hmem, List.map_append]
        rw [List.nodup_append]
        exact ⟨hnd, List.nodup_singleton _, by simpa using hnotin⟩
      · intro t
        simp only [addToTicketGroups, if_neg hmem, List.map_append, List.mem_append,
          List.map_cons, List.map_nil, List.mem_singleton]
        constructor
        · rintro (hin | rfl)
          · rcases (hkeys t).mp hin with ⟨c2, hc2, hk2⟩
            exact ⟨c2, by simp [hc2], hk2⟩
          · exact ⟨c, by simp, hkc⟩
        · rintro ⟨c2, hc2, hk2⟩
          rcases hc2 with hc2 | hc2
          · exact Or.inl ((hkeys t).mpr ⟨c2, hc2, hk2⟩)
          · subst hc2
            rw [hkc] at hk2
            exact Or.inr (Option.some.inj hk2).symm
      · rw [List.filter_append, hun]
        simp [List.filter_cons, hkc]

theorem ticket_fold_inv (cs : List CommitInfo) :
    ∀ (processed : List CommitInfo) (gs : List (String × List CommitInfo))
      (un : List CommitInfo), TicketInv processed gs un →
      TicketInv (processed ++ cs) (cs.foldl ticketStep (gs, un)).1
        (cs.foldl ticketStep (gs, un)).2 := by
  induction cs with
  | nil => intro processed gs un h; simpa using h
  | cons c cs ih =>
    intro processed gs un h
    have h1 := ticketStep_inv processed gs un c h
    have h2 := ih (processed ++ [c]) (ticketStep (gs, un) c).1 (ticketStep (gs, un) c).2 h1
    simpa [List.append_assoc] using h2

/-- C5: under the default patterns, `group_commits_by_ticket` groups each
commit under the upper-cased identifier produced by trying the four default
patterns in order (first match wins, first capture group, case-insensitive):
`"PROJECT-123: add feature"` yields `PROJECT-123`, `"Closes #456"` yields
`456`, `"no ticket here"` yields none.  The returned groups are sorted
lexicographically by identifier (with no duplicate identifiers), commits
within each group keep input order (each group is the input-order filter of
its key, and a key appears iff some commit extracts to it), and commits
matching no pattern are returned second, preserving their original order. -/
theorem ticket_extraction_grouping :
    (∀ cs : List CommitInfo,
      (((group_commits_by_ticket cs).1.map TicketCommits.ticket_id).Pairwise (· ≤ ·))
      ∧ ((group_commits_by_ticket cs).1.map TicketCommits.ticket_id).Nodup
      ∧ (∀ g ∈ (group_commits_by_ticket cs).1,
          g.commits = cs.filter (fun c => ticketKeyOf c = some g.ticket_id))
      ∧ (∀ t, (∃ g ∈ (group_commits_by_ticket cs).1, g.ticket_id = t)
          ↔ ∃ c ∈ cs, ticketKeyOf c = some t)
      ∧ (group_commits_by_ticket cs).2 = cs.filter (fun c => ticketKeyOf c = none))
    ∧ extract_ticket_from_message "PROJECT-123: add feature" = some "PROJECT-123"
    ∧ extract_ticket_from_message "Closes #456" = some "456"
    ∧ extract_ticket_from_message "no ticket here" = none := by
  refine ⟨fun cs => ?_, by decide, by decide, by decide⟩
  have hbase : TicketInv [] [] [] := ⟨by simp, by simp, by simp, by simp⟩
  have hinv : TicketInv cs (cs.foldl ticketStep ([], [])).1
      (cs.foldl ticketStep ([], [])).2 := by
    simpa using ticket_fold_inv cs [] [] [] hbase
  obtain ⟨hbuck, hnd, hkeys, hun⟩ := hinv
  have hperm : List.Perm (sortAscBy Prod.fst (cs.foldl ticketStep ([], [])).1)
      (cs.foldl ticketStep ([], [])).1 := sortAscBy_perm _ _
  have hmapmap : ((sortAscBy Prod.fst (cs.foldl ticketStep ([], [])).1).map
        (fun p => (⟨p.1, p.2⟩ : TicketCommits))).map TicketCommits.ticket_id
      = (sortAscBy Prod.fst (cs.foldl ticketStep ([], [])).1).map Prod.fst := by
    rw [List.map_map]
    exact List.map_congr_left (fun p _ => rfl)
  refine ⟨?_, ?_, ?_, ?_, ?_⟩
  · show ((_ : List TicketCommits).map TicketCommits.ticket_id).Pairwise (· ≤ ·)
    rw [show (group_commits_by_ticket cs).1
        = (sortAscBy Prod.fst (cs.foldl ticketStep ([], [])).1).map
            (fun p => (⟨p.1, p.2⟩ : TicketCommits)) from rfl, hmapmap]
    rw [List.pairwise_map]
    exact sortAscBy_pairwise Prod.fst _
  · rw [show (group_commits_by_ticket cs).1
        = (sortAscBy Prod.fst (cs.foldl ticketStep ([], [])).1).map
            (fun p => (⟨p.1, p.2⟩ : TicketCommits)) from rfl, hmapmap]
    exact ((hperm.map Prod.fst).nodup_iff).mpr hnd
  · intro g hg
    rw [show (group_commits_by_ticket cs).1
        = (sortAscBy Prod.fst (cs.foldl ticketStep ([], [])).1).map
            (fun p => (⟨p.1, p.2⟩ : TicketCommits)) from rfl] at hg
    rcases List.mem_map.mp hg with ⟨p, hpS, rfl⟩
    exact hbuck p (hperm.mem_iff.mp hpS)
  · intro t
    constructor
    · rintro ⟨g, hg, rfl⟩
      rw [show (group_commits_by_ticket cs).1
          = (sortAscBy Prod.fst (cs.foldl ticketStep ([], [])).1).map
              (fun p => (⟨p.1, p.2⟩ : TicketCommits)) from rfl] at hg
      rcases List.mem_map.mp hg with ⟨p, hpS, rfl⟩
      exact (hkeys p.1).mp (List.mem_map.mpr ⟨p, hperm.mem_iff.mp hpS, rfl⟩)
    · intro hex
      rcases (hkeys t).mpr hex with hin
      rcases List.mem_map.mp hin with ⟨p, hp, hpt⟩
      refine ⟨⟨p.1, p.2⟩, ?_, hpt⟩
      rw [show (group_commits_by_ticket cs).1
          = (sortAscBy Prod.fst (cs.foldl ticketStep ([], [])).1).map
              (fun p => (⟨p.1, p.2⟩ : TicketCommits)) from rfl]
      exact List.mem_map.mpr ⟨p, hperm.mem_iff.mpr hp, rfl⟩
  · exact hun

/-- Witness for `ticket_extraction_grouping` on a concrete two-commit list:
the matched commit forms the `PROJECT-123` group and the unmatched one is
returned second. -/
theorem ticket_extraction_grouping_witness :
    (TicketCommits.mk "PROJECT-123"
        [⟨"h1", "a", "2024-01-01 10:00", "PROJECT-123: add feature", "."⟩]).commits
      = [(⟨"h1", "a", "2024-01-01 10:00", "PROJECT-123: add feature", "."⟩ : CommitInfo),
         ⟨"h2", "b", "2024-01-01 11:00", "no ticket here", "."⟩].filter
          (fun c => ticketKeyOf c
            = some (TicketCommits.mk "PROJECT-123"
                [⟨"h1", "a", "2024-01-01 10:00", "PROJECT-123: add feature", "."⟩]).ticket_id)
    ∧ (group_commits_by_ticket
        [⟨"h1", "a", "2024-01-01 10:00", "PROJECT-123: add feature", "."⟩,
         ⟨"h2", "b", "2024-01-01 11:00", "no ticket here", "."⟩]).2
      = [⟨"h2", "b", "2024-01-01 11:00", "no ticket here", "."⟩] := by
  have h := ticket_extraction_grouping.1
    [⟨"h1", "a", "2024-01-01 10:00", "PROJECT-123: add feature", "."⟩,
     ⟨"h2", "b", "2024-01-01 11:00", "no ticket here", "."⟩]
  constructor
  · exact h.2.2.1 (TicketCommits.mk "PROJECT-123"
      [⟨"h1", "a", "2024-01-01 10:00", "PROJECT-123: add feature", "."⟩]) (by decide)
  · rw [h.2.2.2.2]
    decide



/-! ## JSON export (`src/report/utils/exporters.py`, `export_to_json`)

The JSON document is modelled at the value level (`Json` below); Python
`json.dumps`/`json.loads` round-trip such values faithfully, so decoding is
modelled by structural extraction from the value.  `datetime.now()` (the
`exported_at` stamp) is a side effect and becomes an explicit parameter. -/

/-- JSON values (the fragment produced by the exporter). -/
inductive Json where
  | str (s : String)
  | num (n : Nat)
  | arr (xs : List Json)
  | obj (fields : List (String × Json))

/-- The JSON object `{hash, author, date, message}` of one commit —
`origin` (`repo`) is intentionally omitted. -/
def commitJson (c : CommitInfo) : Json :=
  .obj [("hash", .str c.hash), ("author", .str c.author),
        ("date", .str c.date), ("message", .str c.message)]

/-- `export_to_json` from `src/report/utils/exporters.py`: metadata is an
opaque passthrough (`metadata or {}`), `commits` maps each commit to its
four-field object in order, `total_commits` is the input length, and
`exported_at` is the render-time stamp. -/
def export_to_json (commits_info : List CommitInfo) (metadata : Option Json)
    (exported_at : String) : Json :=
  .obj [("metadata", metadata.getD (.obj [])),
        ("commits", .arr (commits_info.map commitJson)),
        ("total_commits", .num commits_info.length),
        ("exported_at", .str exported_at)]

/-- Keys of a JSON object (empty for non-objects). -/
def jsonKeys : Json → List String
  | .obj fields => fields.map Prod.fst
  | _ => []

/-- Decode one commit entry back to its `(hash, author, date, message)`
tuple. -/
def decodeCommitEntry : Json → Option (String × String × String × String)
  | .obj fields =>
    match List.lookup "hash" fields, List.lookup "author" fields,
        List.lookup "date" fields, List.lookup "message" fields with
    | some (.str h), some (.str a), some (.str d), some (.str m) => some (h, a, d, m)
    | _, _, _, _ => none
  | _ => none

/-- Decode a list of commit entries (failing if any entry fails). -/
def decodeEntries : List Json → Option (List (String × String × String × String))
  | [] => some []
  | x :: xs =>
    match decodeCommitEntry x, decodeEntries xs with
    | some t, some ts => some (t :: ts)
    | _, _ => none

/-- Decode the `commits` array of an exported document. -/
def decodeCommits (j : Json) : Option (List (String × String × String × String)) :=
  match j with
  | .obj fields =>
    match List.lookup "commits" fields with
    | some (.arr xs) => decodeEntries xs
    | _ => none
  | _ => none

theorem decodeCommitEntry_commitJson (c : CommitInfo) :
    decodeCommitEntry (commitJson c) = some (c.hash, c.author, c.date, c.message) := rfl

theorem decodeEntries_map (cs : List CommitInfo) :
    decodeEntries (cs.map commitJson)
      = some (cs.map fun c => (c.hash, c.author, c.date, c.message)) := by
  induction cs with
  | nil => rfl
  | cons c cs ih =>
    simp only [List.map_cons, decodeEntries, decodeCommitEntry_commitJson, ih]

/-- C7: the exported JSON object lists exactly the
`(hash, author, date, message)` of the input commits, in order, with
`origin` omitted from every entry; `total_commits` equals the input length;
the empty export has `total_commits = 0` and `commits = []`; and decoding
the `commits` array of the output reproduces the input tuples in order
(round-trip). -/
theorem export_to_json_shape :
    (∀ (cs : List CommitInfo) (md : Option Json) (t : String),
      List.lookup "commits" [("metadata", md.getD (.obj [])),
          ("commits", .arr (cs.map commitJson)),
          ("total_commits", Json.num cs.length), ("exported_at", .str t)]
        = some (.arr (cs.map commitJson))
      ∧ export_to_json cs md t
          = .obj [("metadata", md.getD (.obj [])),
              ("commits", .arr (cs.map commitJson)),
              ("total_commits", .num cs.length), ("exported_at", .str t)]
      ∧ decodeCommits (export_to_json cs md t)
          = some (cs.map fun c => (c.hash, c.author, c.date, c.message)))
    ∧ (∀ c : CommitInfo,
        jsonKeys (commitJson c) = ["hash", "author", "date", "message"])
    ∧ (∀ (md : Option Json) (t : String),
        decodeCommits (export_to_json [] md t) = some []
        ∧ export_to_json [] md t
            = .obj [("metadata", md.getD (.obj [])), ("commits", .arr []),
                ("total_commits", .num 0), ("exported_at", .str t)]) := by
  have hdc : ∀ (cs : List CommitInfo) (md : Option Json) (t : String),
      decodeCommits (export_to_json cs md t)
        = some (cs.map fun c => (c.hash, c.author, c.date, c.message)) := by
    intro cs md t
    show decodeCommits (.obj [("metadata", md.getD (.obj [])),
        ("commits", .arr (cs.map commitJson)),
        ("total_commits", .num cs.length), ("exported_at", .str t)]) = _
    simp only [decodeCommits, List.lookup,
      show ("commits" == "metadata") = false from by decide,
      show ("commits" == "commits") = true from by decide, decodeEntries_map]
  refine ⟨fun cs md t => ⟨?_, rfl, hdc cs md t⟩, fun c => rfl, fun md t => ⟨?_, rfl⟩⟩
  · simp [List.lookup]
  · simpa using hdc [] md t


/-! ## Rendered exporters (`src/report/utils/exporters.py`)

`export_to_markdown`, `export_to_html` and `export_to_email` each build a
list of text lines which the source joins with `"\n"`; they are modelled
here as those line lists.  `metadata` is the dict restricted to the keys the
renderers read (`title`, `date_range`, `author`, `team_members`), `grouped`
is the insertion-ordered groups dict as an association list, and
`datetime.now()` is an explicit `now` parameter.  Note the Python truthiness
tests: an empty `grouped` dict falls back to the flat table, and an empty
group is skipped (`if not group_commits: continue`). -/

/-- The metadata keys read by the renderers (any subset may be present). -/
structure ExportMeta where
  title : Option String
  date_range : Option String
  author : Option String
  team_members : Option String
deriving DecidableEq, Repr

/-- `metadata.get("title", "Git Commit Report")` over an optional dict. -/
def metaTitle (metadata : Option ExportMeta) : String :=
  match metadata with
  | some md => md.title.getD "Git Commit Report"
  | none => "Git Commit Report"

/-- One markdown table row. -/
def mdRow (c : CommitInfo) : String :=
  "| `" ++ c.hash ++ "` | " ++ c.author ++ " | " ++ c.date ++ " | " ++ c.message ++ " |"

/-- The markdown section header of a group: its name and commit count. -/
def mdGroupHeader (p : String × List CommitInfo) : String :=
  "## " ++ p.1 ++ " (" ++ toString p.2.length ++ " commits)\n"

/-- The markdown lines of one group (empty groups are skipped). -/
def mdGroupSection (p : String × List CommitInfo) : List String :=
  if p.2.isEmpty then []
  else
    mdGroupHeader p
      :: "| Hash | Author | Date | Message |"
      :: "|------|--------|------|---------|"
      :: (p.2.map mdRow ++ [""])

/-- The flat (ungrouped) markdown commits table. -/
def mdFlat (commits_info : List CommitInfo) : List String :=
  "## Commits\n"
    :: "| Hash | Author | Date | Message |"
    :: "|------|--------|------|---------|"
    :: commits_info.map mdRow

/-- `export_to_markdown` from `src/report/utils/exporters.py` (line list). -/
def export_to_markdown (commits_info : List CommitInfo) (metadata : Option ExportMeta)
    (grouped : Option (List (String × List CommitInfo))) (now : String) : List String :=
  ("# " ++ metaTitle metadata ++ "\n")
    :: ((match metadata with
        | none => []
        | some md =>
          (match md.date_range with
            | some dr => ["**Period:** " ++ dr ++ "\n"]
            | none => [])
          ++ (match md.author with
              | some a => ["**Author:** " ++ a ++ "\n"]
              | none => [])
          ++ (match md.team_members with
              | some tm => ["**Team Members:** " ++ tm ++ "\n"]
              | none => []))
      ++ ["**Total Commits:** " ++ toString commits_info.length ++ "\n",
          "**Generated:** " ++ now ++ "\n", "---\n"]
      ++ (match grouped with
          | some gs => if gs.isEmpty then mdFlat commits_info else gs.flatMap mdGroupSection
          | none => mdFlat commits_info))


/-- One HTML table row (six lines). -/
def htmlRow (c : CommitInfo) : List String :=
  ["        <tr>",
   "            <td><span class=\x27hash\x27>" ++ c.hash ++ "</span></td>",
   "            <td>" ++ c.author ++ "</td>",
   "            <td>" ++ c.date ++ "</td>",
   "            <td>" ++ c.message ++ "</td>",
   "        </tr>"]

/-- The HTML section header of a group: its name and commit count. -/
def htmlGroupHeader (p : String × List CommitInfo) : String :=
  "    <h2>" ++ p.1 ++ " (" ++ toString p.2.length ++ " commits)</h2>"

/-- The HTML lines of one group (empty groups are skipped). -/
def htmlGroupSection (p : String × List CommitInfo) : List String :=
  if p.2.isEmpty then []
  else
    htmlGroupHeader p
      :: "    <table>"
      :: "        <tr><th>Hash</th><th>Author</th><th>Date</th><th>Message</th></tr>"
      :: (p.2.flatMap htmlRow ++ ["    </table>"])

/-- The flat (ungrouped) HTML commits table. -/
def htmlFlat (commits_info : List CommitInfo) : List String :=
  "    <h2>Commits</h2>"
    :: "    <table>"
    :: "        <tr><th>Hash</th><th>Author</th><th>Date</th><th>Message</th></tr>"
    :: (commits_info.flatMap htmlRow ++ ["    </table>"])

/-- The fixed HTML document head (inline stylesheet) and opening body. -/
def htmlHead (title : String) : List String :=
  ["<!DOCTYPE html>", "<html>", "<head>",
   "    <meta charset=\x27UTF-8\x27>",
   "    <title>" ++ title ++ "</title>",
   "    <style>",
   "        body \x7b font-family: -apple-system, BlinkMacSystemFont, \x27Segoe UI\x27, Arial, sans-serif; max-width: 1200px; margin: 40px auto; padding: 0 20px; \x7d",
   "        h1 \x7b color: #333; border-bottom: 3px solid #007bff; padding-bottom: 10px; \x7d",
   "        h2 \x7b color: #555; margin-top: 30px; border-bottom: 2px solid #ddd; padding-bottom: 8px; \x7d",
   "        .metadata \x7b background: #f8f9fa; padding: 15px; border-radius: 5px; margin: 20px 0; \x7d",
   "        .metadata p \x7b margin: 5px 0; \x7d",
   "        table \x7b width: 100%; border-collapse: collapse; margin: 20px 0; \x7d",
   "        th \x7b background: #007bff; color: white; padding: 12px; text-align: left; \x7d",
   "        td \x7b padding: 10px; border-bottom: 1px solid #ddd; \x7d",
   "        tr:hover \x7b background: #f8f9fa; \x7d",
   "        .hash \x7b font-family: \x27Courier New\x27, monospace; background: #e9ecef; padding: 2px 6px; border-radius: 3px; \x7d",
   "        .footer \x7b margin-top: 40px; padding-top: 20px; border-top: 1px solid #ddd; color: #6c757d; text-align: center; \x7d",
   "    </style>", "</head>", "<body>",
   "    <h1>" ++ title ++ "</h1>"]

/-- The HTML metadata block (rendered only when metadata is passed). -/
def htmlMeta (metadata : Option ExportMeta) (nCommits : Nat) (now : String) : List String :=
  match metadata with
  | none => []
  | some md =>
    "    <div class=\x27metadata\x27>"
      :: ((match md.date_range with
          | some dr => ["        <p><strong>Period:</strong> " ++ dr ++ "</p>"]
          | none => [])
        ++ (match md.author with
            | some a => ["        <p><strong>Author:</strong> " ++ a ++ "</p>"]
            | none => [])
        ++ (match md.team_members with
            | some tm => ["        <p><strong>Team Members:</strong> " ++ tm ++ "</p>"]
            | none => [])
        ++ ["        <p><strong>Total Commits:</strong> " ++ toString nCommits ++ "</p>",
            "        <p><strong>Generated:</strong> " ++ now ++ "</p>",
            "    </div>"])

/-- `export_to_html` from `src/report/utils/exporters.py` (line list). -/
def export_to_html (commits_info : List CommitInfo) (metadata : Option ExportMeta)
    (grouped : Option (List (String × List CommitInfo))) (now : String) : List String :=
  htmlHead (metaTitle metadata)
    ++ htmlMeta metadata commits_info.length now
    ++ (match grouped with
        | some gs => if gs.isEmpty then htmlFlat commits_info else gs.flatMap htmlGroupSection
        | none => htmlFlat commits_info)
    ++ ["    <div class=\x27footer\x27>",
        "        <p>Generated by report-bot on " ++ now ++ "</p>",
        "    </div>", "</body>", "</html>"]


/-- One email list item (four lines, all styles inline). -/
def emailItem (c : CommitInfo) : List String :=
  ["        <li style=\x27margin: 10px 0; padding: 10px; background: #f9f9f9; border-left: 3px solid #007bff;\x27>",
   "            <strong>" ++ c.message ++ "</strong><br>",
   "            <small style=\x27color: #666;\x27>" ++ c.author ++ " \u2022 " ++ c.date ++ " \u2022 <code>" ++ c.hash ++ "</code></small>",
   "        </li>"]

/-- The email section header of a group: its name and commit count. -/
def emailGroupHeader (p : String × List CommitInfo) : String :=
  "    <h3 style=\x27color: #555; margin-top: 25px;\x27>" ++ p.1
    ++ " (" ++ toString p.2.length ++ " commits)</h3>"

/-- The email lines of one group (empty groups are skipped). -/
def emailGroupSection (p : String × List CommitInfo) : List String :=
  if p.2.isEmpty then []
  else
    emailGroupHeader p
      :: "    <ul style=\x27list-style-type: none; padding-left: 0;\x27>"
      :: (p.2.flatMap emailItem ++ ["    </ul>"])

/-- The flat (ungrouped) email commits list. -/
def emailFlat (commits_info : List CommitInfo) : List String :=
  "    <ul style=\x27list-style-type: none; padding-left: 0;\x27>"
    :: (commits_info.flatMap emailItem ++ ["    </ul>"])

/-- The email metadata block (rendered only when metadata is passed). -/
def emailMeta (metadata : Option ExportMeta) (nCommits : Nat) : List String :=
  match metadata with
  | none => []
  | some md =>
    "    <div style=\x27background: #f0f0f0; padding: 15px; border-radius: 5px; margin: 15px 0;\x27>"
      :: ((match md.date_range with
          | some dr => ["        <p style=\x27margin: 5px 0;\x27><strong>Period:</strong> " ++ dr ++ "</p>"]
          | none => [])
        ++ (match md.author with
            | some a => ["        <p style=\x27margin: 5px 0;\x27><strong>Author:</strong> " ++ a ++ "</p>"]
            | none => [])
        ++ (match md.team_members with
            | some tm => ["        <p style=\x27margin: 5px 0;\x27><strong>Team Members:</strong> " ++ tm ++ "</p>"]
            | none => [])
        ++ ["        <p style=\x27margin: 5px 0;\x27><strong>Total Commits:</strong> " ++ toString nCommits ++ "</p>",
            "    </div>"])

/-- `export_to_email` from `src/report/utils/exporters.py` (line list). -/
def export_to_email (commits_info : List CommitInfo) (metadata : Option ExportMeta)
    (grouped : Option (List (String × List CommitInfo))) (now : String) : List String :=
  ["<!DOCTYPE html>", "<html>", "<head><meta charset=\x27UTF-8\x27></head>",
   "<body style=\x27font-family: Arial, sans-serif; color: #333; line-height: 1.6;\x27>",
   "    <h2 style=\x27color: #007bff; border-bottom: 2px solid #007bff; padding-bottom: 10px;\x27>"
     ++ metaTitle metadata ++ "</h2>"]
    ++ emailMeta metadata commits_info.length
    ++ (match grouped with
        | some gs => if gs.isEmpty then emailFlat commits_info else gs.flatMap emailGroupSection
        | none => emailFlat commits_info)
    ++ ["    <hr style=\x27margin-top: 30px; border: none; border-top: 1px solid #ddd;\x27>",
        "    <p style=\x27color: #999; text-align: center;\x27><small>Generated by report-bot on "
          ++ now ++ "</small></p>",
        "</body>", "</html>"]


theorem sections_sublist (gs : List (String × List CommitInfo))
    (sec : (String × List CommitInfo) → List String)
    (hdr : (String × List CommitInfo) → String)
    (hsec : ∀ p, p.2.isEmpty = false → ∃ rest, sec p = hdr p :: rest)
    (hemp : ∀ p, p.2.isEmpty = true → sec p = []) :
    ((gs.filter (fun p => !p.2.isEmpty)).map hdr).Sublist (gs.flatMap sec) := by
  induction gs with
  | nil => simp
  | cons p gs ih =>
    cases hp : p.2.isEmpty with
    | true =>
      rw [List.flatMap_cons, hemp p hp, List.nil_append, List.filter_cons, if_neg (by simp [hp])]
      exact ih
    | false =>
      rcases hsec p hp with ⟨rest, hrest⟩
      rw [List.flatMap_cons, hrest, List.filter_cons, if_pos (by simp [hp]), List.map_cons]
      exact List.Sublist.cons₂ _ (ih.trans (List.sublist_append_right rest _))

theorem sublist_of_middle {S pre body suf : List String} (h : S.Sublist body) :
    S.Sublist (pre ++ (body ++ suf)) :=
  ((h.trans (List.sublist_append_left body suf)).trans
    (List.sublist_append_right pre (body ++ suf)))

/-- C9 (amended): whenever a groups mapping is supplied to the markdown,
HTML, or email exporter, the rendered output contains one table/list section
per NON-EMPTY group of the mapping, in the groups\x27 iteration order, each
prefixed with a header line carrying the group name and its commit count;
empty groups are skipped (and an empty mapping falls back to the flat
table). -/
theorem export_group_sections :
    ∀ (cs : List CommitInfo) (md : Option ExportMeta)
      (gs : List (String × List CommitInfo)) (now : String),
      ((gs.filter (fun p => !p.2.isEmpty)).map mdGroupHeader).Sublist
          (export_to_markdown cs md (some gs) now)
      ∧ ((gs.filter (fun p => !p.2.isEmpty)).map htmlGroupHeader).Sublist
          (export_to_html cs md (some gs) now)
      ∧ ((gs.filter (fun p => !p.2.isEmpty)).map emailGroupHeader).Sublist
          (export_to_email cs md (some gs) now) := by
  intro cs md gs now
  cases hgs : gs.isEmpty with
  | true =>
    rcases List.isEmpty_iff.mp hgs with rfl
    simp
  | false =>
    have hmd := sections_sublist gs mdGroupSection mdGroupHeader
      (fun p hp => ⟨_, by rw [mdGroupSection, if_neg (by simp [hp])]⟩)
      (fun p hp => by rw [mdGroupSection, if_pos hp])
    have hht := sections_sublist gs htmlGroupSection htmlGroupHeader
      (fun p hp => ⟨_, by rw [htmlGroupSection, if_neg (by simp [hp])]⟩)
      (fun p hp => by rw [htmlGroupSection, if_pos hp])
    have hem := sections_sublist gs emailGroupSection emailGroupHeader
      (fun p hp => ⟨_, by rw [emailGroupSection, if_neg (by simp [hp])]⟩)
      (fun p hp => by rw [emailGroupSection, if_pos hp])
    refine ⟨?_, ?_, ?_⟩
    · simp only [export_to_markdown, hgs, Bool.false_eq_true, if_false]
      exact (hmd.trans (List.sublist_append_right _ _)).cons _
    · simp only [export_to_html, hgs, Bool.false_eq_true, if_false]
      exact (hht.trans (List.sublist_append_right _ _)).trans (List.sublist_append_left _ _)
    · simp only [export_to_email, hgs, Bool.false_eq_true, if_false]
      exact (hem.trans (List.sublist_append_right _ _)).trans (List.sublist_append_left _ _)

/-- Counterexample to C9 as stated: a supplied mapping containing an empty
group gets NO section for that group — the markdown output of a mapping
with the single empty group `"Empty"` does not contain its header line, so
the per-group section lines are not a sublist of the output. -/
theorem export_group_sections_counterexample :
    ¬ (([(("Empty" : String), ([] : List CommitInfo))].map mdGroupHeader).Sublist
        (export_to_markdown [] none (some [("Empty", [])]) "2024-01-01 10:00")) := by
  intro h
  simp only [List.map_cons, List.map_nil] at h
  rw [List.singleton_sublist] at h
  exact absurd h (by decide)

/-! ## Diff statistics (`src/report/utils/stats.py`)

`get_commit_stats` consumes the raw commit records of the VCS log (not the
`CommitInfo` view).  A raw commit is modelled by the fields the aggregator
reads: the author name (a missing author or name modelled through `Option`),
whether the commit has a parent, and the result of `parents[0].diff(commit,
create_patch=True)` — `none` when that call raises (the `except` path), in
which case the commit contributes zero line/file changes but still counts.
The per-commit effect on the state (ensure the author entry exists, bump its
commit count, then add each diff entry's paths to the author's and the
repository's file sets and accumulate `+`/`-` line counts) is written as
the commit's net delta applied to the insertion-ordered author dict and the
global file set; the diff call is the only failing operation, so the entry
loop never partially executes. -/

/-- One entry of a GitPython diff index: before-path, after-path, and the
generated patch text (`diff.diff`, decoded; `none` when absent). -/
structure DiffEntry where
  a_path : Option String
  b_path : Option String
  diff_text : Option String
deriving DecidableEq, Repr

/-- A raw commit as read by the statistics aggregator. -/
structure GitCommit where
  authorName : Option String
  hasParent : Bool
  diffResult : Option (List DiffEntry)
deriving DecidableEq, Repr

/-- `commit.author.name if commit.author and commit.author.name else
"Unknown"` (a missing author, missing name, or empty name is `Unknown`). -/
def resolvedAuthor (a : Option String) : String :=
  match a with
  | some s => if s = "" then "Unknown" else s
  | none => "Unknown"

/-- Python `s.split(sep)` for a single-character separator (empty parts
kept). -/
def splitOnChar (sep : Char) : List Char → List (List Char)
  | [] => [[]]
  | x :: xs =>
    match splitOnChar sep xs with
    | [] => [[]]
    | h :: t => if x = sep then [] :: h :: t else (x :: h) :: t

/-- `line.startswith("+") and not line.startswith("+++")`. -/
def isInsertLine : List Char → Bool
  | '+' :: '+' :: '+' :: _ => false
  | '+' :: _ => true
  | _ => false

/-- `line.startswith("-") and not line.startswith("---")`. -/
def isDeleteLine : List Char → Bool
  | '-' :: '-' :: '-' :: _ => false
  | '-' :: _ => true
  | _ => false

/-- The `+`/`-` prefix scan over the unified diff text: count of insertion
lines and deletion lines (the textual heuristic of the source). -/
def countDiffLines (t : String) : Nat × Nat :=
  (splitOnChar '\n' t.toList).foldl
    (fun acc line =>
      if isInsertLine line then (acc.1 + 1, acc.2)
      else if isDeleteLine line then (acc.1, acc.2 + 1)
      else acc) (0, 0)

/-- The per-author accumulator of the aggregation loop (`author_data[name]`):
commit count, touched-file set, insertions, deletions. -/
structure AuthorData where
  commits : Nat
  files : Finset String
  insertions : Nat
  deletions : Nat
deriving DecidableEq

/-- Effect of one diff entry on `(files, insertions, deletions)`: add
`a_path`, add `b_path` when present and different from `a_path` (a rename),
and scan the patch text when present. -/
def entryDelta (acc : Finset String × Nat × Nat) (d : DiffEntry) :
    Finset String × Nat × Nat :=
  let files1 := match d.a_path with
    | some p => insert p acc.1
    | none => acc.1
  let files2 := match d.b_path with
    | some q => if d.b_path ≠ d.a_path then insert q files1 else files1
    | none => files1
  match d.diff_text with
  | some t =>
    let cnt := countDiffLines t
    (files2, acc.2.1 + cnt.1, acc.2.2 + cnt.2)
  | none => (files2, acc.2.1, acc.2.2)

/-- The net line/file contribution of one commit: zero for a root commit
(no parent) and when the diff call raised, else the fold of its diff
entries. -/
def commitDelta (c : GitCommit) : Finset String × Nat × Nat :=
  if c.hasParent then
    match c.diffResult with
    | some entries => entries.foldl entryDelta (∅, 0, 0)
    | none => (∅, 0, 0)
  else (∅, 0, 0)

/-- Apply one commit's contribution to the insertion-ordered author dict:
bump the author's entry (first match), or append a fresh entry at the end
exactly as dict insertion does. -/
def bumpAuthor (name : String) (delta : Finset String × Nat × Nat) :
    List (String × AuthorData) → List (String × AuthorData)
  | [] => [(name, ⟨1, delta.1, delta.2.1, delta.2.2⟩)]
  | p :: t =>
    if p.1 = name then
      (p.1, ⟨p.2.commits + 1, p.2.files ∪ delta.1,
        p.2.insertions + delta.2.1, p.2.deletions + delta.2.2⟩) :: t
    else p :: bumpAuthor name delta t

/-- One iteration of the aggregation loop of `get_commit_stats` over the
state `(author_data, all_files)`. -/
def processCommit (st : List (String × AuthorData) × Finset String)
    (c : GitCommit) : List (String × AuthorData) × Finset String :=
  let name := resolvedAuthor c.authorName
  let delta := commitDelta c
  (bumpAuthor name delta st.1, st.2 ∪ delta.1)

/-- `AuthorStats` from `src/report/utils/stats.py`. -/
structure AuthorStats where
  author : String
  total_commits : Nat
  files_changed : Nat
  insertions : Nat
  deletions : Nat
  net_lines : Int
deriving DecidableEq, Repr

/-- `RepoStats` from `src/report/utils/stats.py`. -/
structure RepoStats where
  total_commits : Nat
  total_authors : Nat
  total_files_changed : Nat
  total_insertions : Nat
  total_deletions : Nat
  net_lines : Int
  author_stats : List AuthorStats
deriving DecidableEq, Repr

/-- The aggregation and result-building part of `get_commit_stats` from
`src/report/utils/stats.py`, over the already-filtered commit list (the
retrieval and author filtering are modelled separately for C2): accumulate
per-author and global stats in scan order, sort authors by descending commit
count (Python's stable `sorted(..., reverse=True)`), and total the
insertions/deletions over the author records. -/
def get_commit_stats (commits : List GitCommit) : RepoStats :=
  let st := commits.foldl processCommit ([], ∅)
  let sorted := sortDescBy (fun p => p.2.commits) st.1
  let author_stats_list := sorted.map (fun p =>
    AuthorStats.mk p.1 p.2.commits p.2.files.card p.2.insertions p.2.deletions
      ((p.2.insertions : Int) - (p.2.deletions : Int)))
  let total_insertions := (sorted.map (fun p => p.2.insertions)).sum
  let total_deletions := (sorted.map (fun p => p.2.deletions)).sum
  RepoStats.mk commits.length st.1.length st.2.card total_insertions
    total_deletions ((total_insertions : Int) - (total_deletions : Int))
    author_stats_list

/-- The union of all authors' touched-file sets in an author dict. -/
def unionFiles (l : List (String × AuthorData)) : Finset String :=
  l.foldr (fun p acc => p.2.files ∪ acc) ∅

/-- Record one commit's author into the first-seen-order name list. -/
def fsStep (acc : List String) (c : GitCommit) : List String :=
  let n := resolvedAuthor c.authorName
  if n ∈ acc then acc else acc ++ [n]

/-- Author names in the order first encountered while scanning the commits
as returned by the accessor. -/
def firstSeenAuthors (commits : List GitCommit) : List String :=
  commits.foldl fsStep []

/-- Commit count stored in an optional author record (0 when absent). -/
def optCommits (o : Option AuthorData) : Nat :=
  match o with
  | some d => d.commits
  | none => 0

/-- Number of commits attributed to `name`. -/
def authorCommitCount (commits : List GitCommit) (name : String) : Nat :=
  (commits.filter (fun c => resolvedAuthor c.authorName = name)).length

theorem bumpAuthor_sumCommits (name : String) (delta : Finset String × Nat × Nat)
    (l : List (String × AuthorData)) :
    ((bumpAuthor name delta l).map (fun p => p.2.commits)).sum
      = (l.map (fun p => p.2.commits)).sum + 1 := by
  induction l with
  | nil => simp [bumpAuthor]
  | cons p t ih =>
    by_cases h : p.1 = name
    · simp only [bumpAuthor, if_pos h, List.map_cons, List.sum_cons]
      omega
    · simp only [bumpAuthor, if_neg h, List.map_cons, List.sum_cons, ih]
      omega

theorem fold_sumCommits (cs : List GitCommit) :
    ∀ st : List (String × AuthorData) × Finset String,
      (((cs.foldl processCommit st).1).map (fun p => p.2.commits)).sum
        = (st.1.map (fun p => p.2.commits)).sum + cs.length := by
  induction cs with
  | nil => intro st; simp
  | cons c cs ih =>
    intro st
    rw [List.foldl_cons, ih]
    simp only [processCommit, bumpAuthor_sumCommits, List.length_cons]
    omega

theorem bumpAuthor_unionFiles (name : String) (delta : Finset String × Nat × Nat)
    (l : List (String × AuthorData)) :
    unionFiles (bumpAuthor name delta l) = unionFiles l ∪ delta.1 := by
  induction l with
  | nil => simp [bumpAuthor, unionFiles]
  | cons p t ih =>
    by_cases h : p.1 = name
    · simp only [bumpAuthor, if_pos h, unionFiles, List.foldr_cons]
      ext x
      simp only [Finset.mem_union]
      tauto
    · simp only [bumpAuthor, if_neg h, unionFiles, List.foldr_cons]
      rw [show (t.foldr (fun p acc => p.2.files ∪ acc) ∅) = unionFiles t from rfl,
        show ((bumpAuthor name delta t).foldr (fun p acc => p.2.files ∪ acc) ∅)
          = unionFiles (bumpAuthor name delta t) from rfl, ih, Finset.union_assoc]

theorem fold_unionFiles (cs : List GitCommit) :
    ∀ st : List (String × AuthorData) × Finset String, st.2 = unionFiles st.1 →
      (cs.foldl processCommit st).2 = unionFiles (cs.foldl processCommit st).1 := by
  induction cs with
  | nil => intro st h; simpa using h
  | cons c cs ih =>
    intro st h
    rw [List.foldl_cons]
    refine ih _ ?_
    simp only [processCommit, bumpAuthor_unionFiles, h]

theorem bumpAuthor_keys (name : String) (delta : Finset String × Nat × Nat)
    (l : List (String × AuthorData)) :
    (bumpAuthor name delta l).map Prod.fst
      = if name ∈ l.map Prod.fst then l.map Prod.fst
        else l.map Prod.fst ++ [name] := by
  induction l with
  | nil => simp [bumpAuthor]
  | cons p t ih =>
    by_cases h : p.1 = name
    · simp [bumpAuthor, h]
    · have hne : ¬ name = p.1 := fun hh => h hh.symm
      by_cases hm : name ∈ t.map Prod.fst <;>
        simp [bumpAuthor, h, ih, hm, List.mem_cons, hne]

theorem lookup_pair {β : Type} (k a : String) (b : β) (t : List (String × β)) :
    List.lookup k ((a, b) :: t) = if k = a then some b else List.lookup k t := by
  by_cases hk : k = a
  · rw [if_pos hk, List.lookup, show (k == a) = true from by simp [hk]]
  · rw [if_neg hk, List.lookup, show (k == a) = false from by simp [hk]]

theorem bumpAuthor_lookup_commits (name : String)
    (delta : Finset String × Nat × Nat) (l : List (String × AuthorData)) (k : String) :
    optCommits (List.lookup k (bumpAuthor name delta l))
      = optCommits (List.lookup k l) + (if k = name then 1 else 0) := by
  induction l with
  | nil =>
    rw [show bumpAuthor name delta []
      = [(name, ⟨1, delta.1, delta.2.1, delta.2.2⟩)] from rfl, lookup_pair]
    by_cases hk : k = name
    · rw [if_pos hk, if_pos hk]
      simp [optCommits]
    · rw [if_neg hk, if_neg hk]
      simp [optCommits]
  | cons p t ih =>
    rcases p with ⟨a, b⟩
    rw [bumpAuthor]
    by_cases h : a = name
    · rw [if_pos (by simpa using h), lookup_pair, lookup_pair]
      by_cases hk : k = a
      · have hkn : k = name := hk.trans h
        simp [hk, h, hkn, optCommits]
      · have hkn : ¬ k = name := fun hh => hk (hh.trans h.symm)
        simp [hk, hkn]
    · rw [if_neg (by simpa using h), lookup_pair, lookup_pair]
      by_cases hk : k = a
      · have hkn : ¬ k = name := fun hh => h (hk.symm.trans hh)
        simp [hk, hkn, h]
      · simpa [hk] using ih

theorem fold_keys (cs : List GitCommit) :
    ∀ st : List (String × AuthorData) × Finset String,
      ((cs.foldl processCommit st).1).map Prod.fst
        = cs.foldl fsStep (st.1.map Prod.fst) := by
  induction cs with
  | nil => intro st; rfl
  | cons c cs ih =>
    intro st
    rw [List.foldl_cons, ih, List.foldl_cons]
    congr 1
    simp only [processCommit, bumpAuthor_keys, fsStep]

theorem fold_lookup_commits (cs : List GitCommit) :
    ∀ (st : List (String × AuthorData) × Finset String) (k : String),
      optCommits (List.lookup k ((cs.foldl processCommit st).1))
        = optCommits (List.lookup k st.1) + authorCommitCount cs k := by
  induction cs with
  | nil => intro st k; simp [authorCommitCount]
  | cons c cs ih =>
    intro st k
    rw [List.foldl_cons, ih]
    have hcount : authorCommitCount (c :: cs) k
        = (if resolvedAuthor c.authorName = k then 1 else 0) + authorCommitCount cs k := by
      simp only [authorCommitCount, List.filter_cons]
      by_cases hc : resolvedAuthor c.authorName = k
      · simp [hc]
        omega
      · simp [hc]
    rw [hcount]
    simp only [processCommit]
    rw [bumpAuthor_lookup_commits]
    by_cases hk : k = resolvedAuthor c.authorName
    · simp only [if_pos hk, if_pos hk.symm]
      omega
    · simp only [if_neg hk, if_neg (fun hh => hk (Eq.symm hh))]
      omega

theorem fsFold_nodup (cs : List GitCommit) :
    ∀ acc : List String, acc.Nodup → (cs.foldl fsStep acc).Nodup := by
  induction cs with
  | nil => intro acc h; simpa using h
  | cons c cs ih =>
    intro acc h
    rw [List.foldl_cons]
    refine ih _ ?_
    simp only [fsStep]
    by_cases hm : resolvedAuthor c.authorName ∈ acc
    · rw [if_pos hm]; exact h
    · rw [if_neg hm]
      rw [List.nodup_append]
      exact ⟨h, List.nodup_singleton _, by simpa using hm⟩

theorem lookup_of_mem_keys_nodup {β : Type} (l : List (String × β)) (p : String × β)
    (hnd : (l.map Prod.fst).Nodup) (hp : p ∈ l) : List.lookup p.1 l = some p.2 := by
  induction l with
  | nil => cases hp
  | cons q t ih =>
    rcases List.mem_cons.mp hp with rfl | hp
    · simp [List.lookup]
    · have hq : q.1 ∉ t.map Prod.fst := (List.nodup_cons.mp (by simpa using hnd)).1
      have hne : ¬ (p.1 = q.1) := by
        intro hh
        exact hq (hh ▸ List.mem_map.mpr ⟨p, hp, rfl⟩)
      simp only [List.lookup, show (p.1 == q.1) = false from by simp [beq_iff_eq, hne]]
      exact ih (List.nodup_cons.mp (by simpa using hnd)).2 hp

theorem filter_keys_of_counts (cnt : String → Nat) (n : Nat) :
    ∀ l : List (String × AuthorData), (∀ p ∈ l, p.2.commits = cnt p.1) →
      (l.filter (fun p => p.2.commits = n)).map Prod.fst
        = (l.map Prod.fst).filter (fun a => cnt a = n) := by
  intro l
  induction l with
  | nil => intro _; rfl
  | cons p t ih =>
    intro h
    have hp := h p (List.mem_cons_self p t)
    have ht := fun q hq => h q (List.mem_cons_of_mem p hq)
    simp only [List.filter_cons, List.map_cons, hp]
    by_cases hc : cnt p.1 = n
    · simp [hc, ih ht]
    · simp [hc, ih ht]

theorem filter_map_comm {α β : Type} (f : α → β) (q : β → Bool) (l : List α) :
    (l.map f).filter q = (l.filter (fun x => q (f x))).map f := by
  induction l with
  | nil => rfl
  | cons x t ih =>
    simp only [List.map_cons, List.filter_cons]
    by_cases h : q (f x) = true
    · simp [h, ih]
    · simp [h, ih]

/-- C1: for every commit list, the `RepoStats` of `get_commit_stats`
satisfies `net_lines = total_insertions - total_deletions` (and every
`AuthorStats` satisfies `net_lines = insertions - deletions`), the author
commit counts sum to `total_commits`, and `total_files_changed` is the size
of the union of all authors' touched-file sets (a file touched by two
authors counts once at the repository level). -/
theorem repo_stats_invariants :
    ∀ commits : List GitCommit,
      (get_commit_stats commits).net_lines
        = ((get_commit_stats commits).total_insertions : Int)
          - ((get_commit_stats commits).total_deletions : Int)
      ∧ (∀ a ∈ (get_commit_stats commits).author_stats,
          a.net_lines = (a.insertions : Int) - (a.deletions : Int))
      ∧ ((get_commit_stats commits).author_stats.map AuthorStats.total_commits).sum
          = (get_commit_stats commits).total_commits
      ∧ (get_commit_stats commits).total_files_changed
          = (unionFiles (commits.foldl processCommit ([], ∅)).1).card := by
  intro commits
  refine ⟨rfl, ?_, ?_, ?_⟩
  · intro a ha
    simp only [get_commit_stats] at ha
    rcases List.mem_map.mp ha with ⟨p, -, rfl⟩
    rfl
  · show ((((sortDescBy (fun p => p.2.commits)
        (commits.foldl processCommit ([], ∅)).1)).map (fun p =>
          AuthorStats.mk p.1 p.2.commits p.2.files.card p.2.insertions p.2.deletions
            ((p.2.insertions : Int) - (p.2.deletions : Int)))).map
              AuthorStats.total_commits).sum = commits.length
    rw [List.map_map]
    have hcomp : (((sortDescBy (fun p => p.2.commits)
          (commits.foldl processCommit ([], ∅)).1)).map
            (AuthorStats.total_commits ∘ fun p =>
              AuthorStats.mk p.1 p.2.commits p.2.files.card p.2.insertions p.2.deletions
                ((p.2.insertions : Int) - (p.2.deletions : Int))))
        = ((sortDescBy (fun p => p.2.commits)
            (commits.foldl processCommit ([], ∅)).1)).map (fun p => p.2.commits) :=
      List.map_congr_left (fun p _ => rfl)
    rw [hcomp]
    have hperm := (sortDescBy_perm (fun (p : String × AuthorData) => p.2.commits)
      (commits.foldl processCommit ([], ∅)).1).map (fun p => p.2.commits)
    rw [hperm.sum_eq]
    have := fold_sumCommits commits ([], ∅)
    simpa using this
  · show ((commits.foldl processCommit ([], ∅)).2).card = _
    rw [fold_unionFiles commits ([], ∅) (by simp [unionFiles])]

/-- Witness for `repo_stats_invariants` on a concrete one-commit history:
the single author record has `net = 2 - 1`. -/
theorem repo_stats_invariants_witness :
    (AuthorStats.mk "alice" 1 1 2 1 1).net_lines
      = ((AuthorStats.mk "alice" 1 1 2 1 1).insertions : Int)
        - ((AuthorStats.mk "alice" 1 1 2 1 1).deletions : Int) := by
  have h := (repo_stats_invariants
    [⟨some "alice", true, some [⟨some "f.py", some "f.py", some "+a\n-b\n+c"⟩]⟩]).2.1
  exact h (AuthorStats.mk "alice" 1 1 2 1 1) (by decide)

/-- C6: the `author_stats` list of `get_commit_stats` is ordered by
descending `total_commits`, and authors with equal commit counts appear in
the order they were first encountered while scanning the commits in accessor
order: for every count value `n`, the authors listed with that count are
exactly the first-seen-order authors whose commit count is `n`. -/
theorem author_stats_ordering :
    ∀ commits : List GitCommit,
      ((get_commit_stats commits).author_stats.map
          AuthorStats.total_commits).Pairwise (fun a b => b ≤ a)
      ∧ (∀ n : Nat,
          (((get_commit_stats commits).author_stats.filter
              (fun a => a.total_commits = n)).map AuthorStats.author)
            = (firstSeenAuthors commits).filter
                (fun name => authorCommitCount commits name = n)) := by
  intro commits
  have hkeys : ((commits.foldl processCommit ([], ∅)).1).map Prod.fst
      = firstSeenAuthors commits := by
    rw [fold_keys]
    rfl
  have hnd : (((commits.foldl processCommit ([], ∅)).1).map Prod.fst).Nodup := by
    rw [hkeys]
    exact fsFold_nodup commits [] List.nodup_nil
  have hcnt : ∀ p ∈ (commits.foldl processCommit ([], ∅)).1,
      p.2.commits = authorCommitCount commits p.1 := by
    intro p hp
    have hl := lookup_of_mem_keys_nodup _ p hnd hp
    have := fold_lookup_commits commits ([], ∅) p.1
    rw [hl] at this
    simpa [optCommits] using this
  constructor
  · show ((((sortDescBy (fun p => p.2.commits)
        (commits.foldl processCommit ([], ∅)).1)).map (fun p =>
          AuthorStats.mk p.1 p.2.commits p.2.files.card p.2.insertions p.2.deletions
            ((p.2.insertions : Int) - (p.2.deletions : Int)))).map
              AuthorStats.total_commits).Pairwise (fun a b => b ≤ a)
    rw [List.map_map]
    rw [List.pairwise_map]
    exact sortDescBy_pairwise (fun (p : String × AuthorData) => p.2.commits) _
  · intro n
    show ((((sortDescBy (fun p => p.2.commits)
        (commits.foldl processCommit ([], ∅)).1)).map (fun p =>
          AuthorStats.mk p.1 p.2.commits p.2.files.card p.2.insertions p.2.deletions
            ((p.2.insertions : Int) - (p.2.deletions : Int)))).filter
              (fun a => a.total_commits = n)).map AuthorStats.author = _
    rw [filter_map_comm]
    rw [List.map_map]
    have hcomp : ((sortDescBy (fun p => p.2.commits)
          (commits.foldl processCommit ([], ∅)).1).filter
            (fun p => decide (p.2.commits = n))).map
            (AuthorStats.author ∘ fun p =>
              AuthorStats.mk p.1 p.2.commits p.2.files.card p.2.insertions p.2.deletions
                ((p.2.insertions : Int) - (p.2.deletions : Int)))
        = ((sortDescBy (fun p => p.2.commits)
            (commits.foldl processCommit ([], ∅)).1).filter
              (fun p => decide (p.2.commits = n))).map Prod.fst :=
      List.map_congr_left (fun p _ => rfl)
    rw [hcomp]
    rw [show ((sortDescBy (fun p => p.2.commits)
        (commits.foldl processCommit ([], ∅)).1).filter
          (fun p => decide (p.2.commits = n)))
      = ((commits.foldl processCommit ([], ∅)).1.filter
          (fun p => decide (p.2.commits = n))) from
      sortDescBy_filter (fun (p : String × AuthorData) => p.2.commits) _ n]
    rw [filter_keys_of_counts (authorCommitCount commits) n _ hcnt, hkeys]

/-! ## Multi-repository aggregation (`src/report/git/commits.py`,
`get_commits_from_multiple_repos`)

The per-path retrieval `get_commits_detailed(repo_path, ...)` is a failable
call into the repository collaborator; it is abstracted as an environment
`env : String → Except String (List CommitInfo)` (an `.error` covers the
caught `RuntimeError`/`InvalidGitRepositoryError`/`GitError`/`OSError`).  A
failing path is skipped (with a printed warning, a side effect not
modelled); each surviving commit is retagged with the final directory-name
component of its path, and the merged list is sorted by the minute-precision
`date` string, descending, with Python's stable `list.sort`. -/

/-- `os.path.basename(os.path.abspath(path))` for an absolute path without
`.`/`..` components: trailing separators are stripped and the last nonempty
component returned. -/
def finalComponent (p : String) : String :=
  String.mk (((splitOnChar '/' p.toList).filter (fun part => !part.isEmpty)).getLastD [])

/-- Rebuild a `CommitInfo` with the repository tag replaced. -/
def retagCommit (repoName : String) (c : CommitInfo) : CommitInfo :=
  ⟨c.hash, c.author, c.date, c.message, repoName⟩

/-- `get_commits_from_multiple_repos` from `src/report/git/commits.py`:
collect the commits of each succeeding path in path order, retag each with
the path's final component, skip failing paths, and stable-sort by `date`
descending. -/
def get_commits_from_multiple_repos
    (env : String → Except String (List CommitInfo))
    (repo_paths : List String) : List CommitInfo :=
  let all_commits := repo_paths.flatMap (fun rp =>
    match env rp with
    | .ok commits => commits.map (retagCommit (finalComponent rp))
    | .error _ => [])
  sortDescBy (fun c => c.date) all_commits

/-- C3: multi-repository aggregation never raises: for every environment
(some paths succeeding, others failing) it returns exactly the retagged
commits of the succeeding paths — each commit tagged with its path's final
directory-name component, failing paths skipped — sorted by the
minute-precision timestamp descending, commits sharing a minute retaining
their relative order from concatenation in path order; in particular one
valid and one nonexistent path yield only the valid path's commits, tagged
with its origin. -/
theorem multi_repo_aggregation :
    (∀ (env : String → Except String (List CommitInfo)) (paths : List String),
      List.Perm (get_commits_from_multiple_repos env paths)
          (paths.flatMap (fun rp =>
            match env rp with
            | .ok commits => commits.map (retagCommit (finalComponent rp))
            | .error _ => []))
      ∧ (get_commits_from_multiple_repos env paths).Pairwise
          (fun a b => b.date ≤ a.date)
      ∧ (∀ d : String,
          (get_commits_from_multiple_repos env paths).filter (fun c => c.date = d)
            = (paths.flatMap (fun rp =>
                match env rp with
                | .ok commits => commits.map (retagCommit (finalComponent rp))
                | .error _ => [])).filter (fun c => c.date = d)))
    ∧ get_commits_from_multiple_repos
        (fun p => if p = "/work/alpha"
          then .ok [⟨"h1", "a", "2024-01-02 10:00", "m1", "."⟩]
          else .error "Not a git repository")
        ["/work/alpha", "/bad/path"]
      = [⟨"h1", "a", "2024-01-02 10:00", "m1", "alpha"⟩] := by
  refine ⟨fun env paths => ⟨?_, ?_, ?_⟩, by decide⟩
  · exact sortDescBy_perm (fun (c : CommitInfo) => c.date) _
  · exact sortDescBy_pairwise (fun (c : CommitInfo) => c.date) _
  · intro d
    exact sortDescBy_filter (fun (c : CommitInfo) => c.date) _ d

/-! ## Author filtering: accessor vs. statistics aggregator
(`src/report/git/commits.py` lines 61-77 and `src/report/utils/stats.py`
lines 54-69)

Both operations read the same underlying commit list (modelled as
`List GitCommit`) and the VCS-configured user name
(`repo.config_reader().get_value("user", "name")`, `none` when that call
raises).  `get_commits_detailed` fetches ALL commits and filters in Python;
`get_commit_stats` passes a non-`"me"` filter to the underlying log query
(`iter_commits(author=...)`), whose native author matching is abstracted as
`nativeFilter : String → GitCommit → Bool` — it is the collaborator's
behaviour, not this repository's code. -/

/-- The author filtering of `get_commits_detailed`: no filter (or an empty,
hence falsy, filter) keeps everything; `"me"` (case-insensitive) compares
the author name for equality with the configured user, and is silently
dropped when resolution fails; any other filter keeps commits whose author
name contains the filter as a case-insensitive substring. -/
def detailedAuthorFilter (configUser : Option String) (author : Option String)
    (commits : List GitCommit) : List GitCommit :=
  match author with
  | none => commits
  | some a =>
    if a = "" then commits
    else if pyToLower a = "me" then
      match configUser with
      | some u => commits.filter (fun c =>
          match c.authorName with
          | some n => n = u
          | none => false)
      | none => commits
    else
      commits.filter (fun c =>
        match c.authorName with
        | some n => n ≠ "" && strContains (pyToLower n) (pyToLower a)
        | none => false)

/-- The author filtering of `get_commit_stats`: a non-`"me"`, nonempty
filter is handed to the log query itself (`author=author if author and
author.lower() != "me" else None`), i.e. the native matcher decides; the
`"me"` filter is then applied in Python exactly as in the accessor. -/
def statsAuthorFilter (nativeFilter : String → GitCommit → Bool)
    (configUser : Option String) (author : Option String)
    (commits : List GitCommit) : List GitCommit :=
  let base :=
    match author with
    | some a =>
      if a ≠ "" ∧ pyToLower a ≠ "me" then commits.filter (nativeFilter a) else commits
    | none => commits
  match author with
  | some a =>
    if a ≠ "" ∧ pyToLower a = "me" then
      match configUser with
      | some u => base.filter (fun c =>
          match c.authorName with
          | some n => n = u
          | none => false)
      | none => base
    else base
  | none => base

/-- A concrete instance of the log query's native author matching, for a
literal (metacharacter-free) pattern on a commit whose author email adds no
match: git's `--author=<pattern>` is an unanchored CASE-SENSITIVE regular
expression match against the author ident, hence a case-sensitive substring
test on the name here.  Used only to exhibit the divergence from the
accessor's case-insensitive matching. -/
def gitLiteralAuthorMatch (pat : String) (c : GitCommit) : Bool :=
  strContains (c.authorName.getD "") pat

/-- Counterexample to C2 as stated: with the native matcher behaving as
git's case-sensitive `--author` matching, the filter `"alice"` on a commit
authored by `"Alice"` is kept by `get_commits_detailed` (case-insensitive
substring) but dropped by `get_commit_stats` (native match). -/
theorem author_filter_divergence :
    statsAuthorFilter gitLiteralAuthorMatch none (some "alice")
        [⟨some "Alice", false, none⟩]
      ≠ detailedAuthorFilter none (some "alice")
        [⟨some "Alice", false, none⟩] := by
  decide

/-- C2 (amended): the `"me"` filter (and the absent or empty filter) is
applied identically by `get_commits_detailed` and `get_commit_stats` —
exact-name match against the VCS-configured user, silently dropped when
resolution fails.  For any other filter, `get_commit_stats` delegates to
the log query's native author matching while `get_commits_detailed` keeps
commits whose author name contains the filter as a case-insensitive
substring; the two operations agree exactly when the native matcher agrees
with that substring predicate on the commits at hand. -/
theorem author_filter_refinement :
    (∀ (nf : String → GitCommit → Bool) (cu : Option String)
        (cs : List GitCommit),
      statsAuthorFilter nf cu none cs = detailedAuthorFilter cu none cs
      ∧ statsAuthorFilter nf cu (some "") cs = detailedAuthorFilter cu (some "") cs)
    ∧ (∀ (nf : String → GitCommit → Bool) (cu : Option String)
        (cs : List GitCommit) (a : String), pyToLower a = "me" →
        statsAuthorFilter nf cu (some a) cs = detailedAuthorFilter cu (some a) cs)
    ∧ (∀ (nf : String → GitCommit → Bool) (cu : Option String)
        (cs : List GitCommit) (a : String), a ≠ "" → pyToLower a ≠ "me" →
        statsAuthorFilter nf cu (some a) cs = cs.filter (nf a)
        ∧ detailedAuthorFilter cu (some a) cs
            = cs.filter (fun c =>
                match c.authorName with
                | some n => n ≠ "" && strContains (pyToLower n) (pyToLower a)
                | none => false)
        ∧ ((∀ c ∈ cs, nf a c = (match c.authorName with
              | some n => n ≠ "" && strContains (pyToLower n) (pyToLower a)
              | none => false)) →
            statsAuthorFilter nf cu (some a) cs
              = detailedAuthorFilter cu (some a) cs)) := by
  refine ⟨fun nf cu cs => ⟨rfl, ?_⟩, fun nf cu cs a hme => ?_, fun nf cu cs a ha hnme => ?_⟩
  · simp only [statsAuthorFilter, detailedAuthorFilter]
    simp
  · have hne : a ≠ "" := by
      intro h
      rw [h] at hme
      exact absurd hme (by decide)
    have h1 : (a ≠ "" ∧ pyToLower a ≠ "me") = False := eq_false (fun hc => hc.2 hme)
    have h2 : (a ≠ "" ∧ pyToLower a = "me") = True := eq_true ⟨hne, hme⟩
    have h3 : (a = "") = False := eq_false hne
    have h4 : (pyToLower a = "me") = True := eq_true hme
    simp [statsAuthorFilter, detailedAuthorFilter, h1, h2, h3, h4, hne]
  · have h1 : (a ≠ "" ∧ pyToLower a ≠ "me") = True := eq_true ⟨ha, hnme⟩
    have h2 : (a ≠ "" ∧ pyToLower a = "me") = False := eq_false (fun hc => hnme hc.2)
    have h3 : (a = "") = False := eq_false ha
    have h4 : (pyToLower a = "me") = False := eq_false hnme
    refine ⟨?_, ?_, ?_⟩
    · simp only [statsAuthorFilter, h1, h2, if_true, if_false]
    · simp only [detailedAuthorFilter, h3, h4, if_true, if_false]
    · intro hagree
      simp [statsAuthorFilter, detailedAuthorFilter, h1, h2, h3, h4]
      refine List.filter_congr ?_
      intro c hc
      have := hagree c hc
      simpa using this

/-- Witness for `author_filter_refinement`: a concrete `"ME"` query where
both operations keep exactly the configured user's commits, and a concrete
non-`"me"` query evaluated through both paths. -/
theorem author_filter_refinement_witness :
    statsAuthorFilter gitLiteralAuthorMatch (some "Alice") (some "ME")
        [⟨some "Alice", false, none⟩, ⟨some "Bob", false, none⟩]
      = detailedAuthorFilter (some "Alice") (some "ME")
        [⟨some "Alice", false, none⟩, ⟨some "Bob", false, none⟩]
    ∧ statsAuthorFilter gitLiteralAuthorMatch none (some "Ali")
        [⟨some "Alice", false, none⟩, ⟨some "Bob", false, none⟩]
      = [⟨some "Alice", false, none⟩, ⟨some "Bob", false, none⟩].filter
          (gitLiteralAuthorMatch "Ali") := by
  constructor
  · exact author_filter_refinement.2.1 gitLiteralAuthorMatch (some "Alice") _ "ME" (by decide)
  · exact (author_filter_refinement.2.2 gitLiteralAuthorMatch none _ "Ali"
      (by decide) (by decide)).1

end Tools
